import Mathlib

/-!
Verification development for the jsonml library (index.js + render.js).

The library builds DOM nodes from JsonML descriptions (`createNode` and
friends, index.js) and reconciles an existing live DOM tree in place
against a new description (`render` / `patchElement` / … , render.js).

The repository carries two revisions of index.js; the one embedded here
is the revision whose exports render.js actually imports (it exports
`JsonMLSymbol` and `isDocumentFragment` and its `createDocumentFragment`
takes and forwards the `xmlns` argument).  The older revision lacks
those exports — render.js could not even load against it — and differs
only in dropping the namespace argument on the fragment path.

Shallow embedding conventions:

* A JsonML description value is the sum type `Jsonml.JsonML`
  (element / text / comment / fragment), mirroring the dispatch on
  `Array.isArray(jsonml)` and `jsonml[0]` in the source.  The optional
  attribute map detected by `isNamedNodeMap(jsonml[1])` is the
  `Option NamedNodeMap` field of an element.
* A live DOM node is `Jsonml.LiveNode`; a `DocumentFragment` is never a
  tree node (appending / replacing with one splices its children), so every
  factory function returns the `List LiveNode` that ends up spliced into
  the tree.  The `JsonMLDelimiter` sentinel is a comment node whose
  `isDelimiter` flag is the out-of-band `JsonMLSymbol` tag.
* JS `undefined` vs `null` for the `xmlns` argument matters (default
  parameters fire only on `undefined`): a namespace value is
  `Ns := Option String` (`none` = null) and the argument slot is
  `Option Ns` (`none` = undefined, so `createElement`'s default `htmlns`
  applies).
* DOM mutation (`replaceWith`, `appendChild`, `removeChild`, writes to
  `nodeValue`) is modelled functionally: patch functions return the nodes
  now occupying the patched position together with a `List Mutation` log.
  The `TreeWalker` used by render.js only ever navigates the direct
  children of the element being patched (`firstChild` / `nextSibling`),
  so it is an optional index into that child list (`none` = the walker's
  current node was removed from the tree, in which case both
  `nextSibling()` and the `.nextSibling` property yield null).
* JS element property assignment (`element[key.description] = value`)
  stores arbitrary JS values verbatim and the library never inspects
  them, so property values are the opaque type `PropValue`.
* Element names are assumed to be lexically valid XML names (the model
  does not replicate `createElementNS`'s name validation); the predicate
  `validNames` additionally rules out the three sentinel names
  `#text` / `#comment` / `#document-fragment` used for dispatch, for
  which the real `createElementNS` would throw.
* HTML-document uppercasing of `nodeName` for HTML-namespace elements is
  not modelled: every name comparison performed by the library outside
  the SVG namespace is case-insensitive, and inside the SVG namespace
  DOM reports the name as given, so the comparison results agree.
-/

namespace Jsonml

/-- Namespace URI of a DOM node: `none` models the JS value `null`. -/
abbrev Ns := Option String

/-- HTML namespace constant (`htmlns` in index.js). -/
def htmlns : String := "http://www.w3.org/1999/xhtml"

/-- SVG namespace constant (`svgns` in index.js). -/
def svgns : String := "http://www.w3.org/2000/svg"

/-- Node name of a fragment (`$fragment` in index.js). -/
def fragmentName : String := "#document-fragment"

/-- Node name of a comment (`$comment` in index.js). -/
def commentName : String := "#comment"

/-- Node name of a text node (`$text` in index.js). -/
def textName : String := "#text"

/-- A JsonML primitive value (the `JsonMLText` type of the library):
string / number / bigint / boolean / null / undefined.  JS numbers are
restricted to integers; the claims at issue never depend on number
formatting. -/
inductive Prim where
  | str (s : String)
  | num (n : Int)
  | bigint (n : Int)
  | boolean (b : Bool)
  | null
  | undef
deriving DecidableEq, Repr

/-- `nodeValueOf` from index.js: string stays, number / bigint / boolean
go through `String(…)`, everything else becomes the empty string. -/
def nodeValueOf : Prim → String
  | .str s => s
  | .num n => toString n
  | .bigint n => toString n
  | .boolean b => if b then "true" else "false"
  | .null => ""
  | .undef => ""

/-- Opaque stand-in for an arbitrary JS value assigned verbatim as an
element property (`element[key.description] = value`).  The library never
inspects such values, so any countable token type embeds them. -/
inductive PropValue where
  | mk (tag : Nat)
deriving DecidableEq, Repr

/-- Value sitting in an attribute map entry: a JsonML primitive or any
other JS value (function, object, …), which `createElement`'s
`switch (typeof value)` ignores. -/
inductive AttrValue where
  | prim (p : Prim)
  | other
deriving DecidableEq, Repr

/-- One own-key of a `JsonMLNamedNodeMap`: a string key (attribute) or a
symbol key, identified by its `description` (`none` models a symbol whose
description is undefined, which `createElement` skips). -/
inductive MapEntry where
  | attr (key : String) (value : AttrValue)
  | prop (descr : Option String) (value : PropValue)
deriving DecidableEq, Repr

/-- A `JsonMLNamedNodeMap`: the own keys of the attribute/property object
in `Reflect.ownKeys` order. -/
structure NamedNodeMap where
  entries : List MapEntry
deriving DecidableEq, Repr

/-- The value of the string key `"xmlns"` in the map (`attrs.xmlns`), if
present. -/
def NamedNodeMap.xmlnsVal (m : NamedNodeMap) : Option AttrValue :=
  m.entries.findSome? fun e =>
    match e with
    | .attr "xmlns" v => some v
    | _ => none

/-- A JsonML description node (`JsonMLNode`), as the explicit sum type
behind the source's dispatch on `Array.isArray(jsonml)` and `jsonml[0]`:
a non-array is a text node; an array is a fragment, a comment or an
element according to its head.  An element's optional attribute map is
the value sniffed by `isNamedNodeMap(jsonml[1])`; a comment's value is
`jsonml[1]` (`Prim.undef` when absent). -/
inductive JsonML where
  | text (value : Prim)
  | comment (value : Prim)
  | element (name : String) (attrs : Option NamedNodeMap) (children : List JsonML)
  | fragment (children : List JsonML)

/-- A live DOM node.  `isDelimiter` is the out-of-band `JsonMLSymbol`
marker distinguishing a `JsonMLDelimiter` from an authored comment. -/
inductive LiveNode where
  | element (name : String) (ns : Ns) (attrs : List (String × String))
      (props : List (String × PropValue)) (children : List LiveNode)
  | text (value : String)
  | comment (value : String) (isDelimiter : Bool)

/-- `Node.nodeName` of a live node. -/
def LiveNode.nodeName : LiveNode → String
  | .element n _ _ _ _ => n
  | .text _ => textName
  | .comment _ _ => commentName

/-- `namespaceURI` of a live node (null for text and comment nodes). -/
def LiveNode.namespaceURI : LiveNode → Ns
  | .element _ ns _ _ _ => ns
  | _ => none

/-- `nodeValue` of a live node (null for elements, modelled as `none`). -/
def LiveNode.nodeValue : LiveNode → Option String
  | .element _ _ _ _ _ => none
  | .text v => some v
  | .comment v _ => some v

/-- The child list of a live node (empty for text and comment nodes). -/
def LiveNode.children : LiveNode → List LiveNode
  | .element _ _ _ _ cs => cs
  | _ => []

/-- Whether a live node is a `JsonMLDelimiter` (`instanceof JsonMLDelimiter`:
a comment carrying the `JsonMLSymbol` marker). -/
def LiveNode.isDelim : LiveNode → Bool
  | .comment _ d => d
  | _ => false

/-- `nodeNameOf` from index.js: an array answers its head (`jsonml[0]`),
anything else is a text node. -/
def nodeNameOf : JsonML → String
  | .element n _ _ => n
  | .fragment _ => fragmentName
  | .comment _ => commentName
  | .text _ => textName

/-- `isDocumentFragment` from index.js. -/
def isDocumentFragment : JsonML → Bool
  | .fragment _ => true
  | _ => false

/-- `setAttribute`: update the attribute in place if present, else append. -/
def setAttr (as : List (String × String)) (k v : String) : List (String × String) :=
  match as with
  | [] => [(k, v)]
  | (k', v') :: rest => if k' = k then (k, v) :: rest else (k', v') :: setAttr rest k v

/-- `removeAttribute` (the `toggleAttribute(key, false)` effect). -/
def removeAttr (as : List (String × String)) (k : String) : List (String × String) :=
  as.filter fun e => e.1 ≠ k

/-- Whether an attribute is present (`toggleAttribute(key, true)` only adds
the attribute, with value `""`, when it is absent). -/
def hasAttr (as : List (String × String)) (k : String) : Bool :=
  as.any fun e => e.1 = k

/-- JS property assignment `element[d] = v`: update in place if the
property exists, else append. -/
def setProp (ps : List (String × PropValue)) (d : String) (v : PropValue) :
    List (String × PropValue) :=
  match ps with
  | [] => [(d, v)]
  | (d', v') :: rest => if d' = d then (d, v) :: rest else (d', v') :: setProp rest d v

/-- Effect of one loop turn of `createElement`'s `for (const key of
Reflect.ownKeys(attrs))` on the (attributes, properties) stores. -/
def applyEntry (st : List (String × String) × List (String × PropValue)) :
    MapEntry → List (String × String) × List (String × PropValue)
  | .attr k (.prim (.str s)) => (setAttr st.1 k s, st.2)
  | .attr k (.prim (.num n)) => (setAttr st.1 k (toString n), st.2)
  | .attr k (.prim (.bigint n)) => (setAttr st.1 k (toString n), st.2)
  | .attr k (.prim (.boolean b)) =>
      (if b then (if hasAttr st.1 k then st.1 else st.1 ++ [(k, "")]) else removeAttr st.1 k, st.2)
  | .attr _ _ => st
  | .prop (some d) v => (st.1, setProp st.2 d v)
  | .prop none _ => st

/-- All entries of an optional attribute map applied in order. -/
def applyEntries (attrs : Option NamedNodeMap) :
    List (String × String) × List (String × PropValue) :=
  match attrs with
  | none => ([], [])
  | some m => m.entries.foldl applyEntry ([], [])

/-- The namespace `createElement` resolves before `createElementNS`:
the default `htmlns` fires only when the argument is `undefined`
(`x = none`), after which a string or null `attrs.xmlns` overrides it. -/
def resolveNs (attrs : Option NamedNodeMap) (x : Option Ns) : Ns :=
  let x0 : Ns := match x with
    | none => some htmlns
    | some v => v
  match attrs with
  | some m =>
      match m.xmlnsVal with
      | some (.prim (.str s)) => some s
      | some (.prim .null) => none
      | _ => x0
  | none => x0

mutual

/-- `createNode` from index.js: dispatch on the shape of the description.
The result is the list of nodes spliced into the tree when the returned
DOM node is appended (a fragment contributes its children). -/
def createNode (j : JsonML) (x : Option Ns) : List LiveNode :=
  match j with
  | .fragment ds => createDocumentFragment (.fragment ds) x
  | .comment v => [.comment (nodeValueOf v) false]
  | .element nm a ds => [createElement (.element nm a ds) x]
  | .text v => [.text (nodeValueOf v)]
termination_by (sizeOf j, 2)

/-- `createElement` from index.js: resolve the namespace (default
`htmlns` on an `undefined` argument, overridden by a string or null
`attrs.xmlns`), apply the attribute/property map, and build the children
with the resolved namespace.  Only ever called with an element
description; other shapes are a contract violation and yield a dummy
text node. -/
def createElement (j : JsonML) (x : Option Ns) : LiveNode :=
  match j with
  | .element nm attrs ds =>
      let ns := resolveNs attrs x
      let st := applyEntries attrs
      .element nm ns st.1 st.2 (createNodes ds (some ns))
  | _ => .text ""
termination_by (sizeOf j, 1)

/-- `createDocumentFragment` from index.js: builds every raw array item
from index 1 on with the given namespace argument.  On an element
description this includes the attribute map itself when present:
`createNode(map)` takes the non-array branch and produces an empty text
node (`nodeValueOf` of an object is `""`).  Only element and fragment
descriptions ever reach this function. -/
def createDocumentFragment (j : JsonML) (x : Option Ns) : List LiveNode :=
  match j with
  | .fragment ds => createNodes ds x
  | .element _ (some _) ds => .text "" :: createNodes ds x
  | .element _ none ds => createNodes ds x
  | _ => []
termination_by (sizeOf j, 1)

/-- The `append(createNode(jsonml[i++], xmlns))` loops of index.js. -/
def createNodes (ds : List JsonML) (x : Option Ns) : List LiveNode :=
  match ds with
  | [] => []
  | d :: rest => createNode d x ++ createNodes rest x
termination_by (sizeOf ds, 0)

end

/-- JS `String.prototype.toLowerCase`, modelled character-wise (adequate
for the ASCII node names the matcher compares). -/
def jsToLower (s : String) : String :=
  ⟨s.data.map Char.toLower⟩

/-- `sameNodeName` from render.js: exact name comparison when the live
node's namespace is the SVG namespace, lowercase comparison otherwise. -/
def sameNodeName (j : JsonML) (n : LiveNode) : Bool :=
  if n.namespaceURI = some svgns then
    n.nodeName == nodeNameOf j
  else
    jsToLower n.nodeName == jsToLower (nodeNameOf j)

/-- The JS expression `nodeValueOf(jsonml)` applied to a whole JsonML
value, as `patchNode` does: a text description is a primitive and is
stringified; a comment, element or fragment description is an array, so
`typeof jsonml` is `'object'` and the `default` branch answers `""`. -/
def nodeValueOfJsonML : JsonML → String
  | .text p => nodeValueOf p
  | _ => ""

/-- `createDelimitedDocumentFragment` from render.js: a fresh
`JsonMLDelimiter` followed by the fragment's children, built with the
given namespace argument.  Only ever invoked on a Fragment description. -/
def createDelimitedDocumentFragment (j : JsonML) (x : Option Ns) : List LiveNode :=
  LiveNode.comment "" true ::
    (match j with
     | .fragment ds => createNodes ds x
     | _ => [])

/-- `createDelimitedNode` from render.js: delimited construction for a
Fragment description, the plain Node Factory otherwise. -/
def createDelimitedNode (j : JsonML) (x : Option Ns) : List LiveNode :=
  if isDocumentFragment j then createDelimitedDocumentFragment j x
  else createNode j x

/-- One observable DOM mutation performed by the patch engine.
`appended ns` records one `appendChild` call (of the listed spliced
nodes — appending an empty fragment inserts nothing). -/
inductive Mutation where
  | appended (ns : List LiveNode)
  | replaced (old : LiveNode) (new : List LiveNode)
  | removed (n : LiveNode)
  | valueWrite (oldV newV : String)

/-- A mutation that inserts, removes or writes nothing: an `appendChild`
of an empty fragment. -/
def Mutation.isNoop : Mutation → Bool
  | .appended [] => true
  | _ => false

/-- A log recording no node creation, removal, replacement or value
write. -/
def quiet (log : List Mutation) : Bool :=
  log.all Mutation.isNoop

/-- Result of patching one live node: the nodes now occupying its
position (a singleton unless a delimited fragment replaced it),
whether the original node object survived in place (`replaceWith` was
not called on it), and the mutations performed in its subtree. -/
structure PatchResult where
  nodes : List LiveNode
  inPlace : Bool
  log : List Mutation

/-- `patchNode` from render.js.  On a name match it compares
`node.nodeValue` with `nodeValueOf(jsonml)` — note: applied to the whole
description, so a comment description compares against `""` — and writes
only on difference; on a mismatch it replaces the node with
`createDelimitedNode(jsonml, node.namespaceURI)` (the third argument of
the call in the source is ignored by the callee).  A value write on a
matched element description (possible only for the sentinel-named
elements excluded by `validNames`) is a DOM no-op and is modelled as
such. -/
def patchNode (j : JsonML) (n : LiveNode) : PatchResult :=
  if sameNodeName j n then
    let v := nodeValueOfJsonML j
    match n with
    | .text oldV =>
        if oldV ≠ v then ⟨[.text v], true, [.valueWrite oldV v]⟩ else ⟨[n], true, []⟩
    | .comment oldV d =>
        if oldV ≠ v then ⟨[.comment v d], true, [.valueWrite oldV v]⟩ else ⟨[n], true, []⟩
    | .element _ _ _ _ _ => ⟨[n], true, []⟩
  else
    let news := createDelimitedNode j (some n.namespaceURI)
    ⟨news, false, [.replaced n news]⟩

/-- Mutable state of one `patchElement` scope: the current child list of
the element being patched and the `TreeWalker` position (`none` once the
walker's current node has been removed from the tree), together with the
mutation log accumulated so far. -/
structure St where
  cs : List LiveNode
  w : Option Nat
  log : List Mutation

/-- `treeWalker.nextSibling()`: move to the following sibling and answer
it, or answer null and stay put (a detached current node has no parent,
so the walk yields null). -/
def twNextSibling (st : St) : Option Nat × St :=
  match st.w with
  | some i => if i + 1 < st.cs.length then (some (i + 1), { st with w := some (i + 1) }) else (none, st)
  | none => (none, st)

/-- The `.nextSibling` property of the walker's current node (null when
the node is detached or last). -/
def twCurrentHasNext (st : St) : Bool :=
  match st.w with
  | some i => i + 1 < st.cs.length
  | none => false

/-- Install a patch result at child position `p`: the node there is
replaced by `r.nodes` (in place when `r.inPlace`, so the walker keeps
pointing at it; a walker sitting on a node that `replaceWith` removed
becomes detached; a walker past the position shifts with the splice). -/
def applyAt (p : Nat) (r : PatchResult) (st : St) : St :=
  { cs := st.cs.take p ++ r.nodes ++ st.cs.drop (p + 1)
    w := match st.w with
      | some i =>
          if i < p then some i
          else if i = p then (if r.inPlace then some p else none)
          else some (i + r.nodes.length - 1)
      | none => none
    log := st.log ++ r.log }

/-- `root.appendChild` of freshly built nodes (a fragment splices). -/
def appendNodes (news : List LiveNode) (st : St) : St :=
  { st with cs := st.cs ++ news, log := st.log ++ [.appended news] }

/-- The trailing `while (currentNode) { … removeChild … }` loop of
`patchElement`: starting from the node at `c` (if any), every following
sibling is removed in order. -/
def removeFrom (c : Option Nat) (st : St) : St :=
  match c with
  | some p => { st with cs := st.cs.take p, log := st.log ++ (st.cs.drop p).map Mutation.removed }
  | none => st

/-- A dummy live node for (in-bounds) list indexing. -/
def dummyNode : LiveNode := .text ""

mutual

/-- `patchElement` from render.js.  On a name match, walk the child list
with a fresh `TreeWalker` and reconcile it against the description's
children (`patchChildren`), then trim the surplus (`removeFrom`); when
the live element has no children at all, append
`createDocumentFragment(jsonml, root.namespaceURI)` wholesale.  On a
mismatch, `root.replaceWith(createElement(jsonml))` — no namespace
argument is forwarded.  A matched non-element live node, or a
description that is not an element, is a contract violation (the source
would throw); it is modelled as a no-op and never reached from
`render`. -/
def patchElement (j : JsonML) (root : LiveNode) : PatchResult :=
  match j with
  | .element nm attrs ds =>
      if sameNodeName (.element nm attrs ds) root then
        match root with
        | .element rn rns ras rps rcs =>
            if rcs.isEmpty then
              let news := createDocumentFragment (.element nm attrs ds) (some rns)
              ⟨[.element rn rns ras rps (rcs ++ news)], true, [.appended news]⟩
            else
              let res := patchChildren ds rns (some 0) ⟨rcs, some 0, []⟩
              let st := removeFrom res.1 res.2
              ⟨[.element rn rns ras rps st.cs], true, st.log⟩
        | _ => ⟨[root], true, []⟩
      else
        let fresh := createElement (.element nm attrs ds) none
        ⟨[fresh], false, [.replaced root [fresh]]⟩
  | _ => ⟨[root], true, []⟩
termination_by (sizeOf j, 1)

/-- The `for (let i = …; i < jsonml.length;)` loop of `patchElement`:
one description child per turn; a live position is patched via
`patchStep`, an exhausted live side appends
`createDelimitedNode(currentJsonML, root.namespaceURI)`.  Answers the
final `currentNode` (for the trailing removal loop) and state. -/
def patchChildren (ds : List JsonML) (rootNs : Ns) (c : Option Nat) (st : St) :
    Option Nat × St :=
  match ds with
  | [] => (c, st)
  | d :: rest =>
      match c with
      | some p =>
          let res := patchStep d p st
          patchChildren rest rootNs res.2 res.1
      | none =>
          patchChildren rest rootNs none (appendNodes (createDelimitedNode d (some rootNs)) st)
termination_by (sizeOf ds, 0)

/-- The shared dispatch body of both child loops in render.js: advance
the walker first (`nextSibling`), dispatch on the description child's
shape, and — after the fragment path — recompute the continuation from
the walker (`treeWalker.currentNode` if it still has a next sibling,
null otherwise). -/
def patchStep (d : JsonML) (p : Nat) (st : St) : St × Option Nat :=
  let next := twNextSibling st
  match d with
  | .fragment ds =>
      let st2 := patchDocumentFragment (.fragment ds) p next.2
      let n : Option Nat := if twCurrentHasNext st2 then st2.w else none
      (st2, n)
  | .comment v => (applyAt p (patchNode (.comment v) (next.2.cs.getD p dummyNode)) next.2, next.1)
  | .element nm a cs =>
      (applyAt p (patchElement (.element nm a cs) (next.2.cs.getD p dummyNode)) next.2, next.1)
  | .text v => (applyAt p (patchNode (.text v) (next.2.cs.getD p dummyNode)) next.2, next.1)
termination_by (sizeOf d, 2)

/-- `patchDocumentFragment` from render.js, at anchor position `p`.  A
delimiter anchor re-enters the fragment: the loop starts from the
walker's current node and shares the walker with the caller.  Any other
anchor is replaced wholesale by `createDelimitedDocumentFragment(jsonml)`
(no namespace argument).  A detached walker at entry cannot arise from
`render` (the caller has just advanced it from the attached anchor). -/
def patchDocumentFragment (j : JsonML) (p : Nat) (st : St) : St :=
  match j with
  | .fragment ds =>
      if (st.cs.getD p dummyNode).isDelim then
        fragLoop ds st.w st
      else
        let news := createDelimitedDocumentFragment (.fragment ds) none
        applyAt p ⟨news, false, [.replaced (st.cs.getD p dummyNode) news]⟩ st
  | _ => st
termination_by (sizeOf j, 1)

/-- The child loop of `patchDocumentFragment`: same dispatch as
`patchChildren`, but an exhausted live side appends
`createDelimitedNode(currentJsonML)` (no namespace argument) to the tree
root and advances the walker (`treeWalker.nextnext = treeWalker.nextSibling()
?? treeWalker.nextnext` — the `nextnext` expando is never read, the call's
side effect on the walker is what remains). -/
def fragLoop (ds : List JsonML) (c : Option Nat) (st : St) : St :=
  match ds with
  | [] => st
  | d :: rest =>
      match c with
      | some q =>
          let res := patchStep d q st
          fragLoop rest res.2 res.1
      | none =>
          let st1 := appendNodes (createDelimitedNode d none) st
          let st2 := (twNextSibling st1).2
          fragLoop rest none st2
termination_by (sizeOf ds, 0)

end

/-- `render` from render.js: patch the root against the synthetic
element description `[root.nodeName, jsonml]`. -/
def render (j : JsonML) (root : LiveNode) : PatchResult :=
  patchElement (.element root.nodeName none [j]) root

/-! ### Proof-layer definitions -/

/-- Whether a string collides with one of the three sentinel node names
under the matcher's case-insensitive rule.  Any such string is an
invalid element name anyway (`createElementNS` rejects a leading `#`). -/
def sentinelName (s : String) : Bool :=
  jsToLower s == textName || jsToLower s == commentName || jsToLower s == fragmentName

mutual

/-- Every element of the description bears a name for which
`createElementNS` would actually construct an element: in particular not
one of the sentinel names, on which the model's constructor-based
dispatch and the source's `jsonml[0]` dispatch could part ways. -/
def validNames (j : JsonML) : Bool :=
  match j with
  | .text _ => true
  | .comment _ => true
  | .element nm _ ds => !sentinelName nm && validNamesList ds
  | .fragment ds => validNamesList ds
termination_by (sizeOf j, 1)

/-- `validNames` over a child list. -/
def validNamesList (ds : List JsonML) : Bool :=
  match ds with
  | [] => true
  | d :: rest => validNames d && validNamesList rest
termination_by (sizeOf ds, 0)

end

mutual

/-- A description containing no Fragment, no Comment and no attribute
map anywhere. -/
def plain (j : JsonML) : Bool :=
  match j with
  | .text _ => true
  | .comment _ => false
  | .element _ attrs ds => attrs.isNone && plainList ds
  | .fragment _ => false
termination_by (sizeOf j, 1)

/-- `plain` over a child list. -/
def plainList (ds : List JsonML) : Bool :=
  match ds with
  | [] => true
  | d :: rest => plain d && plainList rest
termination_by (sizeOf ds, 0)

end

mutual

/-- Every element of a live tree bears a possible DOM element name
(in particular not a sentinel node name, which `createElementNS`
rejects). -/
def validLive (n : LiveNode) : Bool :=
  match n with
  | .element nm _ _ _ cs => !sentinelName nm && validLiveList cs
  | _ => true
termination_by (sizeOf n, 1)

/-- `validLive` over a child list. -/
def validLiveList (cs : List LiveNode) : Bool :=
  match cs with
  | [] => true
  | c :: rest => validLive c && validLiveList rest
termination_by (sizeOf cs, 0)

end

/-- The per-child dispatch of the reconciliation loops, as a function of
the description child alone: a fragment goes to the fragment path
(unused in the fragment-free lemmas below), a comment or text to
`patchNode`, anything else to `patchElement`. -/
def patchOne (d : JsonML) (n : LiveNode) : PatchResult :=
  match d with
  | .fragment _ => ⟨[n], true, []⟩
  | .comment v => patchNode (.comment v) n
  | .text v => patchNode (.text v) n
  | .element nm a cs => patchElement (.element nm a cs) n

/-- The single node produced by a fragment-free per-child patch. -/
def patchOneNode (d : JsonML) (n : LiveNode) : LiveNode :=
  (patchOne d n).nodes.headD dummyNode

/-- Result nodes of patching a description child list positionally
against a live prefix of the same or greater length. -/
def zipNodes (ds : List JsonML) (rest : List LiveNode) : List LiveNode :=
  (List.zipWith (fun d n => (patchOne d n).nodes) ds rest).flatten

/-- Concatenated logs of the positional per-child patches. -/
def zipLogs (ds : List JsonML) (rest : List LiveNode) : List Mutation :=
  (List.zipWith (fun d n => (patchOne d n).log) ds rest).flatten

/-- Nodes appended by `patchChildren` once the live side is exhausted. -/
def appendRun (ds : List JsonML) (rootNs : Ns) : List LiveNode :=
  (ds.map fun d => createDelimitedNode d (some rootNs)).flatten

/-- Append events logged by `patchChildren` once the live side is
exhausted. -/
def appendLogs (ds : List JsonML) (rootNs : Ns) : List Mutation :=
  ds.map fun d => Mutation.appended (createDelimitedNode d (some rootNs))

mutual

/-- The live node is exactly what one pass of the patch engine leaves
behind for this (fragment-, comment- and attribute-free) description:
kinds and names match, a text value is the stringified description
value, and children correspond one to one. -/
def convergedB (d : JsonML) (n : LiveNode) : Bool :=
  match d, n with
  | .text v, .text s => s == nodeValueOf v
  | .element nm a ds, .element en ens eas eps ecs =>
      sameNodeName (.element nm a ds) (.element en ens eas eps ecs) && convergedL ds ecs
  | _, _ => false
termination_by (sizeOf d, 1)

/-- `convergedB` over child lists of equal length. -/
def convergedL (ds : List JsonML) (cs : List LiveNode) : Bool :=
  match ds, cs with
  | [], [] => true
  | d :: ds', c :: cs' => convergedB d c && convergedL ds' cs'
  | _, _ => false
termination_by (sizeOf ds, 0)

end

mutual

/-- No element of the description carries an `xmlns` entry that
`createElement` would treat as a namespace override (a string or null
value under the key `"xmlns"`). -/
def noXmlnsOverride (j : JsonML) : Bool :=
  match j with
  | .text _ => true
  | .comment _ => true
  | .element _ attrs ds =>
      (match attrs with
       | none => true
       | some m =>
           match m.xmlnsVal with
           | some (.prim (.str _)) => false
           | some (.prim .null) => false
           | _ => true) && noXmlnsOverrideList ds
  | .fragment ds => noXmlnsOverrideList ds
termination_by (sizeOf j, 1)

/-- `noXmlnsOverride` over a child list. -/
def noXmlnsOverrideList (ds : List JsonML) : Bool :=
  match ds with
  | [] => true
  | d :: rest => noXmlnsOverride d && noXmlnsOverrideList rest
termination_by (sizeOf ds, 0)

end

mutual

/-- Every element in the live tree (the node itself and all element
descendants) carries the given namespace. -/
def allElemNs (ns0 : Ns) (n : LiveNode) : Bool :=
  match n with
  | .element _ ns _ _ cs => ns == ns0 && allElemNsList ns0 cs
  | _ => true
termination_by (sizeOf n, 1)

/-- `allElemNs` over a child list. -/
def allElemNsList (ns0 : Ns) (cs : List LiveNode) : Bool :=
  match cs with
  | [] => true
  | c :: rest => allElemNs ns0 c && allElemNsList ns0 rest
termination_by (sizeOf cs, 0)

end

/-- The matcher rule as the specification words it (§4.1): two nodes are
the same identity iff their names compare equal under a case-sensitivity
rule keyed on the live node's namespace — exact comparison when the live
node belongs to the SVG namespace, case-insensitive comparison
otherwise.  Stated independently of the source's `sameNodeName` to be
compared against it. -/
def specSameIdentity (j : JsonML) (n : LiveNode) : Bool :=
  if n.namespaceURI = some svgns then
    n.nodeName == nodeNameOf j
  else
    jsToLower n.nodeName == jsToLower (nodeNameOf j)

/-- Induction package: a fresh factory build from this description is a
single node converged with it. -/
def CreateConv (d : JsonML) : Prop :=
  plain d = true → ∀ x, ∃ m, createNode d x = [m] ∧ convergedB d m = true

/-- Induction package: patching any (well-formed) live node against this
description leaves a single node converged with it. -/
def PatchConv (d : JsonML) : Prop :=
  validNames d = true → plain d = true →
    ∀ n, validLive n = true → ∃ m, (patchOne d n).nodes = [m] ∧ convergedB d m = true

/-- Induction package: patching an already-converged live node against
this description keeps the node and performs no mutation. -/
def PatchQuiet (d : JsonML) : Prop :=
  plain d = true → ∀ n, convergedB d n = true →
    ∃ log, patchOne d n = ⟨[n], true, log⟩ ∧ quiet log = true

/-! ### List positioning helpers -/

theorem getD_append_length (front : List LiveNode) (n₀ : LiveNode) (rest : List LiveNode)
    (d : LiveNode) : (front ++ n₀ :: rest).getD front.length d = n₀ := by
  induction front with
  | nil => rfl
  | cons a l ih =>
      simp only [List.cons_append, List.length_cons, List.getD_cons_succ]
      exact ih


theorem take_append_length (front rest : List LiveNode) :
    (front ++ rest).take front.length = front := by
  induction front with
  | nil => rfl
  | cons a l ih =>
      simp only [List.cons_append, List.length_cons, List.take_succ_cons]
      rw [ih]

theorem drop_append_length (front rest : List LiveNode) :
    (front ++ rest).drop front.length = rest := by
  induction front with
  | nil => rfl
  | cons a l ih =>
      simp only [List.cons_append, List.length_cons, List.drop_succ_cons]
      exact ih

theorem drop_append_length_succ (front : List LiveNode) (n₀ : LiveNode) (rest : List LiveNode) :
    (front ++ n₀ :: rest).drop (front.length + 1) = rest := by
  induction front with
  | nil => rfl
  | cons a l ih =>
      simp only [List.cons_append, List.length_cons, List.drop_succ_cons]
      exact ih

theorem length_append_cons (front : List LiveNode) (n₀ : LiveNode) (rest : List LiveNode) :
    (front ++ n₀ :: rest).length = front.length + rest.length + 1 := by
  simp; omega

/-! ### Basic facts about the matcher and the per-child patch -/

/-- An element description always matches a live element of the same
name, whatever the live namespace. -/
theorem sameNodeName_self (nm : String) (a : Option NamedNodeMap) (ds : List JsonML)
    (ns : Ns) (as' : List (String × String)) (ps : List (String × PropValue))
    (cs : List LiveNode) :
    sameNodeName (.element nm a ds) (.element nm ns as' ps cs) = true := by
  simp only [sameNodeName, LiveNode.namespaceURI, LiveNode.nodeName, nodeNameOf]
  split <;> simp

theorem createDelimitedNode_text (v : Prim) (x : Option Ns) :
    createDelimitedNode (.text v) x = [.text (nodeValueOf v)] := by
  simp [createDelimitedNode, isDocumentFragment, createNode]

theorem createDelimitedNode_comment (v : Prim) (x : Option Ns) :
    createDelimitedNode (.comment v) x = [.comment (nodeValueOf v) false] := by
  simp [createDelimitedNode, isDocumentFragment, createNode]

theorem createDelimitedNode_element (nm : String) (a : Option NamedNodeMap)
    (ds : List JsonML) (x : Option Ns) :
    createDelimitedNode (.element nm a ds) x = [createElement (.element nm a ds) x] := by
  simp [createDelimitedNode, isDocumentFragment, createNode]

theorem createDelimitedNode_fragment (ds : List JsonML) (x : Option Ns) :
    createDelimitedNode (.fragment ds) x = .comment "" true :: createNodes ds x := by
  simp [createDelimitedNode, isDocumentFragment, createDelimitedDocumentFragment]

theorem patchNode_single (j : JsonML) (hj : isDocumentFragment j = false) (n : LiveNode) :
    (patchNode j n).nodes = [(patchNode j n).nodes.headD dummyNode] := by
  unfold patchNode
  split
  · dsimp only
    split <;> (try split) <;> rfl
  · dsimp only
    cases j with
    | fragment ds => simp [isDocumentFragment] at hj
    | text v => simp [createDelimitedNode_text]
    | comment v => simp [createDelimitedNode_comment]
    | element nm a ds => simp [createDelimitedNode_element]

theorem patchElement_single (j : JsonML) (n : LiveNode) :
    (patchElement j n).nodes = [(patchElement j n).nodes.headD dummyNode] := by
  unfold patchElement
  split <;> (try dsimp only) <;> (try split) <;> (try dsimp only) <;> (try split) <;>
    (try dsimp only) <;> (try split) <;> (try dsimp only) <;> rfl

/-- Every per-child patch result occupies exactly one position: only the
fragment path can splice several nodes, and `patchOne` keeps it out. -/
theorem patchOne_single (d : JsonML) (n : LiveNode) :
    (patchOne d n).nodes = [patchOneNode d n] := by
  cases d with
  | fragment ds => rfl
  | text v => exact patchNode_single (.text v) rfl n
  | comment v => exact patchNode_single (.comment v) rfl n
  | element nm a cs => exact patchElement_single (.element nm a cs) n

theorem zipNodes_nil (rest : List LiveNode) : zipNodes [] rest = [] := rfl

theorem zipNodes_cons (d : JsonML) (ds : List JsonML) (r : LiveNode) (rest : List LiveNode) :
    zipNodes (d :: ds) (r :: rest) = (patchOne d r).nodes ++ zipNodes ds rest := by
  simp [zipNodes]

theorem zipLogs_nil (rest : List LiveNode) : zipLogs [] rest = [] := rfl

theorem zipLogs_cons (d : JsonML) (ds : List JsonML) (r : LiveNode) (rest : List LiveNode) :
    zipLogs (d :: ds) (r :: rest) = (patchOne d r).log ++ zipLogs ds rest := by
  simp [zipLogs]

theorem zipNodes_length (ds : List JsonML) (rest : List LiveNode)
    (h : ds.length ≤ rest.length) : (zipNodes ds rest).length = ds.length := by
  induction ds generalizing rest with
  | nil => rfl
  | cons d ds' ih =>
      cases rest with
      | nil => simp at h
      | cons r rest' =>
          rw [zipNodes_cons, patchOne_single]
          simp only [List.length_append, List.length_cons, List.length_nil]
          rw [ih rest' (by simpa using h)]
          omega

/-! ### Characterizing one loop turn on a non-fragment description child -/

/-- `applyAt` at the walker-advanced position. -/
theorem applyAt_mid_next (front : List LiveNode) (n₀ : LiveNode) (rest : List LiveNode)
    (r : PatchResult) (hr : r.nodes.length = 1) (log0 : List Mutation) :
    applyAt front.length r ⟨front ++ n₀ :: rest, some (front.length + 1), log0⟩ =
      ⟨front ++ r.nodes ++ rest, some (front.length + 1), log0 ++ r.log⟩ := by
  simp only [applyAt, take_append_length, drop_append_length_succ]
  have h1 : ¬ (front.length + 1 < front.length) := by omega
  have h2 : ¬ (front.length + 1 = front.length) := by omega
  simp [h1, h2, hr]

/-- `applyAt` when the walker could not advance and still sits on the
patched position. -/
theorem applyAt_mid_stay (front : List LiveNode) (n₀ : LiveNode) (rest : List LiveNode)
    (r : PatchResult) (log0 : List Mutation) :
    applyAt front.length r ⟨front ++ n₀ :: rest, some front.length, log0⟩ =
      ⟨front ++ r.nodes ++ rest, if r.inPlace then some front.length else none,
       log0 ++ r.log⟩ := by
  simp [applyAt, take_append_length, drop_append_length_succ]

/-- `treeWalker.nextSibling()` when a following sibling exists. -/
theorem twNextSibling_mid (front : List LiveNode) (n₀ : LiveNode) (rest : List LiveNode)
    (hr : rest ≠ []) (log0 : List Mutation) :
    twNextSibling ⟨front ++ n₀ :: rest, some front.length, log0⟩ =
      (some (front.length + 1), ⟨front ++ n₀ :: rest, some (front.length + 1), log0⟩) := by
  have hrl : 0 < rest.length := List.length_pos.mpr hr
  have hc : front.length + 1 < (front ++ n₀ :: rest).length := by
    rw [length_append_cons]; omega
  simp only [twNextSibling, if_pos hc]

/-- `treeWalker.nextSibling()` from the last child: null, walker stays. -/
theorem twNextSibling_last (front : List LiveNode) (n₀ : LiveNode) (log0 : List Mutation) :
    twNextSibling ⟨front ++ [n₀], some front.length, log0⟩ =
      (none, ⟨front ++ [n₀], some front.length, log0⟩) := by
  have hc : ¬ (front.length + 1 < (front ++ [n₀]).length) := by
    simp only [length_append_cons, List.length_nil]; omega
  simp only [twNextSibling, if_neg hc]

/-- One loop turn on a non-fragment description child with following live
siblings: the walker and continuation advance by one, the node is patched
in position. -/
theorem patchStep_nonfrag_mid (d : JsonML) (hd : isDocumentFragment d = false)
    (front : List LiveNode) (n₀ : LiveNode) (rest : List LiveNode) (hr : rest ≠ [])
    (log0 : List Mutation) :
    patchStep d front.length ⟨front ++ n₀ :: rest, some front.length, log0⟩ =
      (⟨front ++ (patchOne d n₀).nodes ++ rest, some (front.length + 1),
        log0 ++ (patchOne d n₀).log⟩,
       some (front.length + 1)) := by
  have h1 : (patchOne d n₀).nodes.length = 1 := by rw [patchOne_single]; rfl
  cases d with
  | fragment ds => simp [isDocumentFragment] at hd
  | text v =>
      simp only [patchStep, twNextSibling_mid front n₀ rest hr log0,
        getD_append_length, patchOne]
      rw [applyAt_mid_next front n₀ rest _ (by simpa [patchOne] using h1) log0]
  | comment v =>
      simp only [patchStep, twNextSibling_mid front n₀ rest hr log0,
        getD_append_length, patchOne]
      rw [applyAt_mid_next front n₀ rest _ (by simpa [patchOne] using h1) log0]
  | element nm a cs =>
      simp only [patchStep, twNextSibling_mid front n₀ rest hr log0,
        getD_append_length, patchOne]
      rw [applyAt_mid_next front n₀ rest _ (by simpa [patchOne] using h1) log0]

/-- One loop turn on a non-fragment description child sitting on the last
live child: the walker fails to advance (and detaches if the node is
replaced), the continuation becomes null. -/
theorem patchStep_nonfrag_last (d : JsonML) (hd : isDocumentFragment d = false)
    (front : List LiveNode) (n₀ : LiveNode) (log0 : List Mutation) :
    patchStep d front.length ⟨front ++ [n₀], some front.length, log0⟩ =
      (⟨front ++ (patchOne d n₀).nodes,
        if (patchOne d n₀).inPlace then some front.length else none,
        log0 ++ (patchOne d n₀).log⟩,
       none) := by
  cases d with
  | fragment ds => simp [isDocumentFragment] at hd
  | text v =>
      simp only [patchStep, twNextSibling_last front n₀ log0, getD_append_length, patchOne]
      rw [applyAt_mid_stay front n₀ [] _ log0]
      simp
  | comment v =>
      simp only [patchStep, twNextSibling_last front n₀ log0, getD_append_length, patchOne]
      rw [applyAt_mid_stay front n₀ [] _ log0]
      simp
  | element nm a cs =>
      simp only [patchStep, twNextSibling_last front n₀ log0, getD_append_length, patchOne]
      rw [applyAt_mid_stay front n₀ [] _ log0]
      simp

/-! ### The child loop on fragment-free description children -/

theorem appendRun_nil (rootNs : Ns) : appendRun [] rootNs = [] := rfl

theorem appendRun_cons (d : JsonML) (ds : List JsonML) (rootNs : Ns) :
    appendRun (d :: ds) rootNs = createDelimitedNode d (some rootNs) ++ appendRun ds rootNs := by
  simp [appendRun]

theorem appendLogs_nil (rootNs : Ns) : appendLogs [] rootNs = [] := rfl

theorem appendLogs_cons (d : JsonML) (ds : List JsonML) (rootNs : Ns) :
    appendLogs (d :: ds) rootNs =
      Mutation.appended (createDelimitedNode d (some rootNs)) :: appendLogs ds rootNs := rfl

theorem zipNodes_nil_right (ds : List JsonML) : zipNodes ds [] = [] := by
  cases ds <;> rfl

theorem zipLogs_nil_right (ds : List JsonML) : zipLogs ds [] = [] := by
  cases ds <;> rfl

/-- Once the live side is exhausted (`currentNode` null), the rest of the
loop appends delimited fresh nodes built with the root's namespace. -/
theorem patchChildren_none (ds : List JsonML) (rootNs : Ns) (st : St) :
    patchChildren ds rootNs none st =
      (none, ⟨st.cs ++ appendRun ds rootNs, st.w, st.log ++ appendLogs ds rootNs⟩) := by
  induction ds generalizing st with
  | nil => simp [patchChildren, appendRun_nil, appendLogs_nil]
  | cons d rest ih =>
      simp only [patchChildren]
      rw [ih]
      simp [appendNodes, appendRun_cons, appendLogs_cons]

/-- The loop with strictly more live children than (fragment-free)
description children: every description child patches one live child in
place or one-for-one, the continuation ends up on the first surplus live
child. -/
theorem patchChildren_live_longer (ds : List JsonML) (rootNs : Ns) :
    ∀ (front rest : List LiveNode) (log0 : List Mutation),
      (∀ d ∈ ds, isDocumentFragment d = false) → ds.length < rest.length →
    patchChildren ds rootNs (some front.length) ⟨front ++ rest, some front.length, log0⟩ =
      (some (front.length + ds.length),
       ⟨front ++ zipNodes ds rest ++ rest.drop ds.length, some (front.length + ds.length),
        log0 ++ zipLogs ds rest⟩) := by
  induction ds with
  | nil =>
      intro front rest log0 _ _
      simp [patchChildren, zipNodes_nil, zipLogs_nil]
  | cons d ds' ih =>
      intro front rest log0 hf h
      cases rest with
      | nil => simp at h
      | cons r rest' =>
          have hr : rest' ≠ [] := by
            intro he
            subst he
            simp at h
          simp only [patchChildren]
          rw [patchStep_nonfrag_mid d (hf d (by simp)) front r rest' hr log0]
          have hfl : front.length + 1 = (front ++ (patchOne d r).nodes).length := by
            rw [List.length_append, patchOne_single]
            rfl
          have hassoc : front ++ (patchOne d r).nodes ++ rest' =
              (front ++ (patchOne d r).nodes) ++ rest' := by
            rw [List.append_assoc]
          rw [hfl, hassoc,
            ih (front ++ (patchOne d r).nodes) rest' (log0 ++ (patchOne d r).log)
              (fun d' hd' => hf d' (by simp [hd'])) (by simpa using h)]
          rw [zipNodes_cons, zipLogs_cons]
          simp only [List.length_append, List.length_cons, List.drop_succ_cons,
            List.append_assoc, patchOne_single]
          have harith : front.length + (([] : List LiveNode).length + 1) + ds'.length =
              front.length + (ds'.length + 1) := by
            simp only [List.length_nil]
            omega
          rw [harith]

/-- The loop with at least as many (fragment-free) description children
as live children: the live children are patched one-for-one, the walker
sticks at the last one, and every remaining description child is
appended fresh. -/
theorem patchChildren_live_shorter (ds : List JsonML) (rootNs : Ns) :
    ∀ (front rest : List LiveNode) (log0 : List Mutation),
      (∀ d ∈ ds, isDocumentFragment d = false) → rest ≠ [] → rest.length ≤ ds.length →
    ∃ wfin,
    patchChildren ds rootNs (some front.length) ⟨front ++ rest, some front.length, log0⟩ =
      (none,
       ⟨front ++ zipNodes ds rest ++ appendRun (ds.drop rest.length) rootNs, wfin,
        log0 ++ zipLogs ds rest ++ appendLogs (ds.drop rest.length) rootNs⟩) := by
  induction ds with
  | nil =>
      intro front rest log0 _ hne hle
      cases rest with
      | nil => exact absurd rfl hne
      | cons r rest' => simp at hle
  | cons d ds' ih =>
      intro front rest log0 hf hne hle
      cases rest with
      | nil => exact absurd rfl hne
      | cons r rest' =>
          cases rest' with
          | nil =>
              simp only [patchChildren]
              rw [patchStep_nonfrag_last d (hf d (by simp)) front r log0]
              rw [patchChildren_none ds' rootNs _]
              refine ⟨if (patchOne d r).inPlace then some front.length else none, ?_⟩
              rw [zipNodes_cons, zipLogs_cons]
              simp [zipNodes_nil_right, zipLogs_nil_right, List.append_assoc]
          | cons r2 rest'' =>
              simp only [patchChildren]
              rw [patchStep_nonfrag_mid d (hf d (by simp)) front r (r2 :: rest'')
                (by simp) log0]
              have hfl : front.length + 1 = (front ++ (patchOne d r).nodes).length := by
                rw [List.length_append, patchOne_single]
                rfl
              have hassoc : front ++ (patchOne d r).nodes ++ (r2 :: rest'') =
                  (front ++ (patchOne d r).nodes) ++ (r2 :: rest'') := by
                rw [List.append_assoc]
              rw [hfl, hassoc]
              obtain ⟨wfin, hres⟩ :=
                ih (front ++ (patchOne d r).nodes) (r2 :: rest'') (log0 ++ (patchOne d r).log)
                  (fun d' hd' => hf d' (by simp [hd'])) (by simp) (by simpa using hle)
              refine ⟨wfin, ?_⟩
              rw [hres, zipNodes_cons, zipLogs_cons]
              simp [List.append_assoc]

/-! ### `patchElement` branch characterizations -/

/-- Identity mismatch: the live node is replaced wholesale by
`createElement(jsonml)` — built with no namespace argument — and nothing
else happens. -/
theorem patchElement_mismatch (nm : String) (attrs : Option NamedNodeMap)
    (ds : List JsonML) (n : LiveNode)
    (h : sameNodeName (.element nm attrs ds) n = false) :
    patchElement (.element nm attrs ds) n =
      ⟨[createElement (.element nm attrs ds) none], false,
       [.replaced n [createElement (.element nm attrs ds) none]]⟩ := by
  rw [patchElement.eq_def]
  simp [h]

/-- Matched element with no live children: the whole child set is built
fresh by `createDocumentFragment(jsonml, root.namespaceURI)` and
appended. -/
theorem patchElement_match_empty (nm : String) (attrs : Option NamedNodeMap)
    (ds : List JsonML) (rn : String) (rns : Ns) (ras : List (String × String))
    (rps : List (String × PropValue))
    (h : sameNodeName (.element nm attrs ds) (.element rn rns ras rps []) = true) :
    patchElement (.element nm attrs ds) (.element rn rns ras rps []) =
      ⟨[.element rn rns ras rps (createDocumentFragment (.element nm attrs ds) (some rns))],
       true,
       [.appended (createDocumentFragment (.element nm attrs ds) (some rns))]⟩ := by
  simp [patchElement, h]

/-- Matched element, fragment-free description children, live side
strictly longer: the first `ds.length` live children are patched
one-to-one and in order, and exactly the surplus trailing live children
are removed. -/
theorem patchElement_match_longer (nm : String) (attrs : Option NamedNodeMap)
    (ds : List JsonML) (rn : String) (rns : Ns) (ras : List (String × String))
    (rps : List (String × PropValue)) (rcs : List LiveNode)
    (h : sameNodeName (.element nm attrs ds) (.element rn rns ras rps rcs) = true)
    (hf : ∀ d ∈ ds, isDocumentFragment d = false)
    (hlen : ds.length < rcs.length) :
    patchElement (.element nm attrs ds) (.element rn rns ras rps rcs) =
      ⟨[.element rn rns ras rps (zipNodes ds rcs)], true,
       zipLogs ds rcs ++ (rcs.drop ds.length).map Mutation.removed⟩ := by
  have hne : rcs ≠ [] := by
    intro he
    subst he
    simp at hlen
  have hloop := patchChildren_live_longer ds rns [] rcs [] hf hlen
  simp only [List.nil_append, List.length_nil, Nat.zero_add] at hloop
  have hzl : (zipNodes ds rcs).length = ds.length :=
    zipNodes_length ds rcs (Nat.le_of_lt hlen)
  simp only [patchElement, h, if_true, List.isEmpty_eq_true, hne, if_false]
  rw [hloop]
  simp only [removeFrom]
  rw [show List.take ds.length (zipNodes ds rcs ++ List.drop ds.length rcs) =
      zipNodes ds rcs by rw [← hzl, take_append_length],
    show List.drop ds.length (zipNodes ds rcs ++ List.drop ds.length rcs) =
      List.drop ds.length rcs by rw [← hzl, drop_append_length]]

/-- Matched element, fragment-free description children, live side
nonempty but not longer: live children are patched one-to-one, the
remaining description children are appended fresh with the root's
namespace, and nothing is removed. -/
theorem patchElement_match_shorter (nm : String) (attrs : Option NamedNodeMap)
    (ds : List JsonML) (rn : String) (rns : Ns) (ras : List (String × String))
    (rps : List (String × PropValue)) (rcs : List LiveNode)
    (h : sameNodeName (.element nm attrs ds) (.element rn rns ras rps rcs) = true)
    (hf : ∀ d ∈ ds, isDocumentFragment d = false)
    (hne : rcs ≠ []) (hlen : rcs.length ≤ ds.length) :
    patchElement (.element nm attrs ds) (.element rn rns ras rps rcs) =
      ⟨[.element rn rns ras rps
          (zipNodes ds rcs ++ appendRun (ds.drop rcs.length) rns)], true,
       zipLogs ds rcs ++ appendLogs (ds.drop rcs.length) rns⟩ := by
  obtain ⟨wfin, hloop⟩ := patchChildren_live_shorter ds rns [] rcs [] hf hne hlen
  simp only [List.nil_append, List.length_nil] at hloop
  simp only [patchElement, h, if_true, List.isEmpty_eq_true, hne, if_false]
  rw [hloop]
  simp [removeFrom]

/-! ### Kind-level facts about the matcher -/

theorem jsToLower_textName : jsToLower textName = textName := by decide

theorem jsToLower_commentName : jsToLower commentName = commentName := by decide

theorem sameNodeName_text_text (v : Prim) (s : String) :
    sameNodeName (.text v) (.text s) = true := by
  simp [sameNodeName, LiveNode.namespaceURI, LiveNode.nodeName, nodeNameOf]

theorem sameNodeName_comment_comment (v : Prim) (s : String) (b : Bool) :
    sameNodeName (.comment v) (.comment s b) = true := by
  simp [sameNodeName, LiveNode.namespaceURI, LiveNode.nodeName, nodeNameOf]

theorem sameNodeName_text_comment (v : Prim) (s : String) (b : Bool) :
    sameNodeName (.text v) (.comment s b) = false := by
  simp [sameNodeName, LiveNode.namespaceURI, LiveNode.nodeName, nodeNameOf,
    textName, commentName]
  decide

theorem sameNodeName_comment_text (v : Prim) (s : String) :
    sameNodeName (.comment v) (.text s) = false := by
  simp [sameNodeName, LiveNode.namespaceURI, LiveNode.nodeName, nodeNameOf,
    textName, commentName]
  decide

theorem sameNodeName_element_livetext (nm : String) (a : Option NamedNodeMap)
    (ds : List JsonML) (s : String) (hs : sentinelName nm = false) :
    sameNodeName (.element nm a ds) (.text s) = false := by
  simp only [sentinelName, Bool.or_eq_false_iff, beq_eq_false_iff_ne] at hs
  simp only [sameNodeName, LiveNode.namespaceURI, LiveNode.nodeName, nodeNameOf]
  rw [if_neg (by simp)]
  rw [jsToLower_textName]
  simpa using fun he => hs.1.1 he.symm

theorem sameNodeName_element_livecomment (nm : String) (a : Option NamedNodeMap)
    (ds : List JsonML) (s : String) (b : Bool) (hs : sentinelName nm = false) :
    sameNodeName (.element nm a ds) (.comment s b) = false := by
  simp only [sentinelName, Bool.or_eq_false_iff, beq_eq_false_iff_ne] at hs
  simp only [sameNodeName, LiveNode.namespaceURI, LiveNode.nodeName, nodeNameOf]
  rw [if_neg (by simp)]
  rw [jsToLower_commentName]
  simpa using fun he => hs.1.2 he.symm

/-- Under the matcher, an element description with a non-sentinel name
can only match a live element. -/
theorem matched_is_element (nm : String) (a : Option NamedNodeMap) (ds : List JsonML)
    (n : LiveNode) (hs : sentinelName nm = false)
    (h : sameNodeName (.element nm a ds) n = true) :
    ∃ en ens eas eps ecs, n = LiveNode.element en ens eas eps ecs := by
  cases n with
  | element en ens eas eps ecs => exact ⟨en, ens, eas, eps, ecs, rfl⟩
  | text s => rw [sameNodeName_element_livetext nm a ds s hs] at h; cases h
  | comment s b => rw [sameNodeName_element_livecomment nm a ds s b hs] at h; cases h

/-! ### Facts about convergence and quiet logs -/

theorem convergedL_length (ds : List JsonML) : ∀ (cs : List LiveNode),
    convergedL ds cs = true → ds.length = cs.length := by
  induction ds with
  | nil => intro cs h; cases cs with
      | nil => rfl
      | cons c cs' => simp [convergedL] at h
  | cons d ds' ih =>
      intro cs h
      cases cs with
      | nil => simp [convergedL] at h
      | cons c cs' =>
          simp only [convergedL, Bool.and_eq_true] at h
          simp [ih cs' h.2]

theorem quiet_append (a b : List Mutation) :
    quiet (a ++ b) = (quiet a && quiet b) := by
  simp [quiet, List.all_append]

theorem createDelimitedNode_nonfrag (d : JsonML) (hd : isDocumentFragment d = false)
    (x : Option Ns) : createDelimitedNode d x = createNode d x := by
  simp [createDelimitedNode, hd]

theorem plain_not_fragment (d : JsonML) (hp : plain d = true) :
    isDocumentFragment d = false := by
  cases d <;> simp_all [plain, isDocumentFragment]

theorem plainList_mem (ds : List JsonML) :
    plainList ds = true → ∀ d ∈ ds, plain d = true := by
  induction ds with
  | nil => intro _ d hd; cases hd
  | cons a rest ih =>
      intro h d hd
      simp only [plainList, Bool.and_eq_true] at h
      rcases List.mem_cons.mp hd with he | hm
      · exact he ▸ h.1
      · exact ih h.2 d hm

theorem validNamesList_mem (ds : List JsonML) :
    validNamesList ds = true → ∀ d ∈ ds, validNames d = true := by
  induction ds with
  | nil => intro _ d hd; cases hd
  | cons a rest ih =>
      intro h d hd
      simp only [validNamesList, Bool.and_eq_true] at h
      rcases List.mem_cons.mp hd with he | hm
      · exact he ▸ h.1
      · exact ih h.2 d hm

theorem validLiveList_mem (cs : List LiveNode) :
    validLiveList cs = true → ∀ c ∈ cs, validLive c = true := by
  induction cs with
  | nil => intro _ c hc; cases hc
  | cons a rest ih =>
      intro h c hc
      simp only [validLiveList, Bool.and_eq_true] at h
      rcases List.mem_cons.mp hc with he | hm
      · exact he ▸ h.1
      · exact ih h.2 c hm

theorem plainList_not_fragment (ds : List JsonML) (hp : plainList ds = true) :
    ∀ d ∈ ds, isDocumentFragment d = false :=
  fun d hd => plain_not_fragment d (plainList_mem ds hp d hd)

theorem js_sizeOf_pos (d : JsonML) : 0 < sizeOf d := by
  cases d <;> simp_arith

/-! ### Converged lists from the factory and from per-child patches -/

theorem createNodes_convergedL (ds : List JsonML) :
    ∀ (x : Option Ns), plainList ds = true → (∀ d ∈ ds, CreateConv d) →
    convergedL ds (createNodes ds x) = true := by
  induction ds with
  | nil => intro x _ _; simp [createNodes, convergedL]
  | cons d rest ih =>
      intro x hp hcc
      simp only [plainList, Bool.and_eq_true] at hp
      obtain ⟨m, hm, hc⟩ := hcc d (by simp) hp.1 x
      simp only [createNodes, hm, List.singleton_append]
      simp only [convergedL, Bool.and_eq_true]
      exact ⟨hc, ih x hp.2 fun d' hd' => hcc d' (by simp [hd'])⟩

theorem convergedL_appendRun (ds : List JsonML) :
    ∀ (rns : Ns), plainList ds = true → (∀ d ∈ ds, CreateConv d) →
    convergedL ds (appendRun ds rns) = true := by
  induction ds with
  | nil => intro rns _ _; simp [appendRun_nil, convergedL]
  | cons d rest ih =>
      intro rns hp hcc
      simp only [plainList, Bool.and_eq_true] at hp
      obtain ⟨m, hm, hc⟩ := hcc d (by simp) hp.1 (some rns)
      rw [appendRun_cons, createDelimitedNode_nonfrag d (plain_not_fragment d hp.1),
        hm]
      simp only [List.singleton_append, convergedL, Bool.and_eq_true]
      exact ⟨hc, ih rns hp.2 fun d' hd' => hcc d' (by simp [hd'])⟩

theorem convergedL_zip (ds : List JsonML) :
    ∀ (cs : List LiveNode), validNamesList ds = true → plainList ds = true →
      validLiveList cs = true → (∀ d ∈ ds, PatchConv d) → ds.length ≤ cs.length →
    convergedL ds (zipNodes ds cs) = true := by
  induction ds with
  | nil => intro cs _ _ _ _ _; simp [zipNodes_nil, convergedL]
  | cons d rest ih =>
      intro cs hv hp hl hpc hlen
      cases cs with
      | nil => simp at hlen
      | cons c cs' =>
          simp only [validNamesList, plainList, Bool.and_eq_true] at hv hp
          simp only [validLiveList, Bool.and_eq_true] at hl
          obtain ⟨m, hm, hc⟩ := hpc d (by simp) hv.1 hp.1 c hl.1
          rw [zipNodes_cons, hm]
          simp only [List.singleton_append, convergedL, Bool.and_eq_true]
          exact ⟨hc, ih cs' hv.2 hp.2 hl.2 (fun d' hd' => hpc d' (by simp [hd']))
            (by simpa using hlen)⟩

theorem convergedL_zip_append (ds : List JsonML) :
    ∀ (cs : List LiveNode) (rns : Ns), validNamesList ds = true → plainList ds = true →
      validLiveList cs = true → (∀ d ∈ ds, PatchConv d) → (∀ d ∈ ds, CreateConv d) →
      cs.length ≤ ds.length →
    convergedL ds (zipNodes ds cs ++ appendRun (ds.drop cs.length) rns) = true := by
  induction ds with
  | nil =>
      intro cs rns _ _ _ _ _ hlen
      cases cs with
      | nil => simp [zipNodes_nil, appendRun_nil, convergedL]
      | cons c cs' => simp at hlen
  | cons d rest ih =>
      intro cs rns hv hp hl hpc hcc hlen
      cases cs with
      | nil =>
          rw [zipNodes_nil_right]
          simpa using convergedL_appendRun (d :: rest) rns hp hcc
      | cons c cs' =>
          simp only [validNamesList, plainList, Bool.and_eq_true] at hv hp
          simp only [validLiveList, Bool.and_eq_true] at hl
          obtain ⟨m, hm, hc⟩ := hpc d (by simp) hv.1 hp.1 c hl.1
          rw [zipNodes_cons, hm]
          simp only [List.length_cons, List.drop_succ_cons, List.singleton_append,
            List.cons_append, convergedL, Bool.and_eq_true]
          exact ⟨hc, ih cs' rns hv.2 hp.2 hl.2 (fun d' hd' => hpc d' (by simp [hd']))
            (fun d' hd' => hcc d' (by simp [hd'])) (by simpa using hlen)⟩

theorem zipNodes_id (ds : List JsonML) :
    ∀ (cs : List LiveNode), plainList ds = true → (∀ d ∈ ds, PatchQuiet d) →
      convergedL ds cs = true →
    zipNodes ds cs = cs ∧ quiet (zipLogs ds cs) = true := by
  induction ds with
  | nil =>
      intro cs _ _ hc
      cases cs with
      | nil => exact ⟨rfl, rfl⟩
      | cons c cs' => simp [convergedL] at hc
  | cons d rest ih =>
      intro cs hp hpq hc
      cases cs with
      | nil => simp [convergedL] at hc
      | cons c cs' =>
          simp only [plainList, Bool.and_eq_true] at hp
          simp only [convergedL, Bool.and_eq_true] at hc
          obtain ⟨log, heq, hq⟩ := hpq d (by simp) hp.1 c hc.1
          obtain ⟨hz, hzq⟩ := ih cs' hp.2 (fun d' hd' => hpq d' (by simp [hd'])) hc.2
          constructor
          · rw [zipNodes_cons, heq, hz]
            rfl
          · rw [zipLogs_cons, heq, quiet_append, hzq]
            simpa using hq

theorem sameNodeName_text_liveelement (v : Prim) (en : String) (ens : Ns)
    (eas : List (String × String)) (eps : List (String × PropValue)) (ecs : List LiveNode)
    (hs : sentinelName en = false) :
    sameNodeName (.text v) (.element en ens eas eps ecs) = false := by
  simp only [sentinelName, Bool.or_eq_false_iff, beq_eq_false_iff_ne] at hs
  simp only [sameNodeName, LiveNode.namespaceURI, LiveNode.nodeName, nodeNameOf]
  split
  · simp only [beq_eq_false_iff_ne, ne_eq]
    intro he
    exact hs.1.1 (by rw [he, jsToLower_textName])
  · simp only [beq_eq_false_iff_ne, ne_eq, jsToLower_textName]
    exact hs.1.1

/-! ### One patch pass converges; a second pass is quiet -/

/-- The factory always builds a tree converged with a plain
description. -/
theorem createNode_conv_aux : ∀ (N : Nat) (d : JsonML), sizeOf d ≤ N → CreateConv d := by
  intro N
  induction N with
  | zero =>
      intro d hd
      have := js_sizeOf_pos d
      omega
  | succ N ihN =>
      intro d hd hp x
      cases d with
      | text v =>
          exact ⟨.text (nodeValueOf v), by simp [createNode], by simp [convergedB]⟩
      | comment v => simp [plain] at hp
      | fragment ds => simp [plain] at hp
      | element nm attrs ds =>
          simp only [plain, Bool.and_eq_true, Option.isNone_iff_eq_none] at hp
          obtain ⟨ha, hpl⟩ := hp
          subst ha
          refine ⟨createElement (.element nm none ds) x, by simp [createNode], ?_⟩
          simp only [createElement]
          simp only [convergedB, Bool.and_eq_true]
          refine ⟨sameNodeName_self nm none ds _ _ _ _, ?_⟩
          apply createNodes_convergedL ds _ hpl
          intro d' hd'
          apply ihN d'
          have h1 := List.sizeOf_lt_of_mem hd'
          have h2 : sizeOf ds < sizeOf (JsonML.element nm none ds) := by simp_arith
          omega

theorem createNode_conv (d : JsonML) : CreateConv d :=
  createNode_conv_aux (sizeOf d) d (Nat.le_refl _)

/-- One patch pass over any well-formed live node leaves a tree
converged with a plain description. -/
theorem patchOne_conv_aux : ∀ (N : Nat) (d : JsonML), sizeOf d ≤ N → PatchConv d := by
  intro N
  induction N with
  | zero =>
      intro d hd
      have := js_sizeOf_pos d
      omega
  | succ N ihN =>
      intro d hd hv hp n hn
      cases d with
      | comment v => simp [plain] at hp
      | fragment ds => simp [plain] at hp
      | text v =>
          cases n with
          | text s =>
              by_cases hval : s = nodeValueOf v
              · refine ⟨.text (nodeValueOf v), ?_, by simp [convergedB]⟩
                simp [patchOne, patchNode, sameNodeName_text_text, nodeValueOfJsonML, hval]
              · refine ⟨.text (nodeValueOf v), ?_, by simp [convergedB]⟩
                simp [patchOne, patchNode, sameNodeName_text_text, nodeValueOfJsonML, hval]
          | comment s b =>
              refine ⟨.text (nodeValueOf v), ?_, by simp [convergedB]⟩
              simp [patchOne, patchNode, sameNodeName_text_comment,
                createDelimitedNode_text]
          | element en ens eas eps ecs =>
              simp only [validLive, Bool.and_eq_true, Bool.not_eq_true'] at hn
              refine ⟨.text (nodeValueOf v), ?_, by simp [convergedB]⟩
              simp [patchOne, patchNode,
                sameNodeName_text_liveelement v en ens eas eps ecs hn.1,
                createDelimitedNode_text]
      | element nm attrs ds =>
          simp only [validNames, Bool.and_eq_true, Bool.not_eq_true'] at hv
          obtain ⟨hs, hvl⟩ := hv
          simp only [plain, Bool.and_eq_true, Option.isNone_iff_eq_none] at hp
          obtain ⟨ha, hpl⟩ := hp
          subst ha
          have hihP : ∀ d' ∈ ds, PatchConv d' := by
            intro d' hd'
            apply ihN d'
            have h1 := List.sizeOf_lt_of_mem hd'
            have h2 : sizeOf ds < sizeOf (JsonML.element nm none ds) := by simp_arith
            omega
          have hihC : ∀ d' ∈ ds, CreateConv d' := fun d' _ => createNode_conv d'
          by_cases hmatch : sameNodeName (.element nm none ds) n = true
          · obtain ⟨en, ens, eas, eps, ecs, rfl⟩ := matched_is_element nm none ds n hs hmatch
            simp only [validLive, Bool.and_eq_true, Bool.not_eq_true'] at hn
            cases ecs with
            | nil =>
                refine ⟨.element en ens eas eps
                  (createDocumentFragment (.element nm none ds) (some ens)), ?_, ?_⟩
                · simp only [patchOne]
                  rw [patchElement_match_empty nm none ds en ens eas eps hmatch]
                · simp only [createDocumentFragment, convergedB, Bool.and_eq_true]
                  exact ⟨hmatch, createNodes_convergedL ds (some ens) hpl hihC⟩
            | cons c ecs' =>
                by_cases hlen : ds.length < (c :: ecs').length
                · refine ⟨.element en ens eas eps (zipNodes ds (c :: ecs')), ?_, ?_⟩
                  · simp only [patchOne]
                    rw [patchElement_match_longer nm none ds en ens eas eps (c :: ecs')
                      hmatch (plainList_not_fragment ds hpl) hlen]
                  · simp only [convergedB, Bool.and_eq_true]
                    exact ⟨hmatch, convergedL_zip ds (c :: ecs') hvl hpl hn.2 hihP
                      (Nat.le_of_lt hlen)⟩
                · have hlen' : (c :: ecs').length ≤ ds.length := Nat.le_of_not_lt hlen
                  refine ⟨.element en ens eas eps
                    (zipNodes ds (c :: ecs') ++
                      appendRun (ds.drop (c :: ecs').length) ens), ?_, ?_⟩
                  · simp only [patchOne]
                    rw [patchElement_match_shorter nm none ds en ens eas eps (c :: ecs')
                      hmatch (plainList_not_fragment ds hpl) (by simp) hlen']
                  · simp only [convergedB, Bool.and_eq_true]
                    exact ⟨hmatch, convergedL_zip_append ds (c :: ecs') ens hvl hpl hn.2
                      hihP hihC hlen'⟩
          · have hmatch' : sameNodeName (.element nm none ds) n = false :=
              Bool.not_eq_true _ ▸ Bool.of_not_eq_true hmatch
            obtain ⟨m, hm, hc⟩ := createNode_conv (.element nm none ds)
              (by simp [plain, hpl]) none
            simp only [createNode] at hm
            have hm' : createElement (.element nm none ds) none = m := by
              simpa using hm
            refine ⟨m, ?_, hc⟩
            simp only [patchOne]
            rw [patchElement_mismatch nm none ds n hmatch', hm']

theorem patchOne_conv (d : JsonML) : PatchConv d :=
  patchOne_conv_aux (sizeOf d) d (Nat.le_refl _)

/-- Patching a converged live node against the same plain description is
a no-op: the node is kept and the log records no mutation. -/
theorem patchOne_quiet_aux : ∀ (N : Nat) (d : JsonML), sizeOf d ≤ N → PatchQuiet d := by
  intro N
  induction N with
  | zero =>
      intro d hd
      have := js_sizeOf_pos d
      omega
  | succ N ihN =>
      intro d hd hp n hc
      cases d with
      | comment v => simp [plain] at hp
      | fragment ds => simp [plain] at hp
      | text v =>
          cases n with
          | text s =>
              simp only [convergedB, beq_iff_eq] at hc
              subst hc
              refine ⟨[], ?_, rfl⟩
              simp [patchOne, patchNode, sameNodeName_text_text, nodeValueOfJsonML]
          | comment s b => simp [convergedB] at hc
          | element en ens eas eps ecs => simp [convergedB] at hc
      | element nm attrs ds =>
          simp only [plain, Bool.and_eq_true, Option.isNone_iff_eq_none] at hp
          obtain ⟨ha, hpl⟩ := hp
          subst ha
          have hihQ : ∀ d' ∈ ds, PatchQuiet d' := by
            intro d' hd'
            apply ihN d'
            have h1 := List.sizeOf_lt_of_mem hd'
            have h2 : sizeOf ds < sizeOf (JsonML.element nm none ds) := by simp_arith
            omega
          cases n with
          | text s => simp [convergedB] at hc
          | comment s b => simp [convergedB] at hc
          | element en ens eas eps ecs =>
              simp only [convergedB, Bool.and_eq_true] at hc
              obtain ⟨hmatch, hcl⟩ := hc
              cases ecs with
              | nil =>
                  have hds : ds = [] := by
                    cases ds with
                    | nil => rfl
                    | cons d' ds' => simp [convergedL] at hcl
                  subst hds
                  refine ⟨[.appended []], ?_, rfl⟩
                  rw [patchOne]
                  rw [patchElement_match_empty nm none [] en ens eas eps hmatch]
                  simp [createDocumentFragment, createNodes]
              | cons c ecs' =>
                  have hlen : ds.length = (c :: ecs').length :=
                    convergedL_length ds (c :: ecs') hcl
                  obtain ⟨hz, hzq⟩ := zipNodes_id ds (c :: ecs') hpl hihQ hcl
                  refine ⟨zipLogs ds (c :: ecs'), ?_, hzq⟩
                  rw [patchOne]
                  rw [patchElement_match_shorter nm none ds en ens eas eps (c :: ecs')
                    hmatch (plainList_not_fragment ds hpl) (by simp) (Nat.le_of_eq hlen.symm)]
                  rw [hz, ← hlen, List.drop_length, appendRun_nil, appendLogs_nil]
                  simp

theorem patchOne_quiet (d : JsonML) : PatchQuiet d :=
  patchOne_quiet_aux (sizeOf d) d (Nat.le_refl _)

/-! ### Render-level lemmas -/

/-- The matched branch of `patchElement` always preserves the live
element's name, namespace, attributes and properties, whatever the
description's children are. -/
theorem patchElement_match_shape (nm : String) (attrs : Option NamedNodeMap)
    (ds : List JsonML) (rn : String) (rns : Ns) (ras : List (String × String))
    (rps : List (String × PropValue)) (rcs : List LiveNode)
    (h : sameNodeName (.element nm attrs ds) (.element rn rns ras rps rcs) = true) :
    ∃ cs' log, patchElement (.element nm attrs ds) (.element rn rns ras rps rcs) =
      ⟨[.element rn rns ras rps cs'], true, log⟩ := by
  simp only [patchElement, h, if_true]
  split
  · exact ⟨_, _, rfl⟩
  · exact ⟨_, _, rfl⟩

/-- `render` reduces to `patchElement` on the synthetic single-child
description `[root.nodeName, jsonml]`, whose top-level match always
succeeds against an element root. -/
theorem render_eq_patchElement (j : JsonML) (rn : String) (rns : Ns)
    (ras : List (String × String)) (rps : List (String × PropValue))
    (rcs : List LiveNode) :
    render j (.element rn rns ras rps rcs) =
      patchElement (.element rn none [j]) (.element rn rns ras rps rcs) := rfl

/-- After one `render` against a plain description, the root keeps its
header and its new child list is converged with the singleton
description list. -/
theorem render_conv (D : JsonML) (hv : validNames D = true) (hp : plain D = true)
    (rn : String) (rns : Ns) (ras : List (String × String))
    (rps : List (String × PropValue)) (rcs : List LiveNode)
    (hl : validLiveList rcs = true) :
    ∃ cs' log, render D (.element rn rns ras rps rcs) =
        ⟨[.element rn rns ras rps cs'], true, log⟩ ∧ convergedL [D] cs' = true := by
  have hsame := sameNodeName_self rn none [D] rns ras rps rcs
  rw [render_eq_patchElement]
  have hf : ∀ d ∈ [D], isDocumentFragment d = false := by
    intro d hd
    have he : d = D := List.mem_singleton.mp hd
    subst he
    exact plain_not_fragment d hp
  cases rcs with
  | nil =>
      obtain ⟨m, hm, hc⟩ := createNode_conv D hp (some rns)
      have hstep := patchElement_match_empty rn none [D] rn rns ras rps hsame
      have hnews : createDocumentFragment (.element rn none [D]) (some rns) = [m] := by
        simp only [createDocumentFragment, createNodes, hm]
        simp
      rw [hnews] at hstep
      exact ⟨[m], _, hstep, by simp [convergedL, hc]⟩
  | cons c rcs' =>
      have hvc : validLive c = true := validLiveList_mem _ hl c (by simp)
      obtain ⟨m, hm, hc⟩ := patchOne_conv D hv hp c hvc
      cases rcs' with
      | nil =>
          have hstep := patchElement_match_shorter rn none [D] rn rns ras rps [c] hsame hf
            (by simp) (by simp)
          have hz : zipNodes [D] [c] ++ appendRun (([D] : List JsonML).drop 1) rns = [m] := by
            rw [show zipNodes [D] [c] = (patchOne D c).nodes by simp [zipNodes], hm]
            simp [appendRun_nil]
          rw [show (([c] : List LiveNode)).length = 1 from rfl, hz] at hstep
          exact ⟨[m], _, hstep, by simp [convergedL, hc]⟩
      | cons c2 rcs'' =>
          have hlen : ([D] : List JsonML).length < (c :: c2 :: rcs'').length := by
            simp
          have hstep := patchElement_match_longer rn none [D] rn rns ras rps
            (c :: c2 :: rcs'') hsame hf hlen
          have hz : zipNodes [D] (c :: c2 :: rcs'') = [m] := by
            rw [show zipNodes [D] (c :: c2 :: rcs'') = (patchOne D c).nodes by
              simp [zipNodes], hm]
          rw [hz] at hstep
          exact ⟨[m], _, hstep, by simp [convergedL, hc]⟩

/-- Rendering a plain description a second time over an already
converged root performs no mutation and leaves the root unchanged. -/
theorem render_quiet (D : JsonML) (hp : plain D = true)
    (rn : String) (rns : Ns) (ras : List (String × String))
    (rps : List (String × PropValue)) (cs₁ : List LiveNode)
    (hc : convergedL [D] cs₁ = true) :
    ∃ log, render D (.element rn rns ras rps cs₁) =
        ⟨[.element rn rns ras rps cs₁], true, log⟩ ∧ quiet log = true := by
  have hsame := sameNodeName_self rn none [D] rns ras rps cs₁
  rw [render_eq_patchElement]
  have hf : ∀ d ∈ [D], isDocumentFragment d = false := by
    intro d hd
    have he : d = D := List.mem_singleton.mp hd
    subst he
    exact plain_not_fragment d hp
  have hq1 : ∀ d ∈ [D], PatchQuiet d := by
    intro d hd
    exact patchOne_quiet d
  have hlen := convergedL_length [D] cs₁ hc
  cases cs₁ with
  | nil => simp at hlen
  | cons c cs'' =>
      cases cs'' with
      | cons c2 cs''' => simp at hlen
      | nil =>
          obtain ⟨hz, hzq⟩ := zipNodes_id [D] [c] (by simp [plainList, hp]) hq1 hc
          refine ⟨zipLogs [D] [c], ?_, hzq⟩
          rw [patchElement_match_shorter rn none [D] rn rns ras rps [c] hsame hf
            (by simp) (by simp)]
          rw [hz]
          simp [appendRun_nil, appendLogs_nil]

/-! ### Namespace propagation through the factory -/

theorem allElemNsList_append (ns0 : Ns) (a b : List LiveNode) :
    allElemNsList ns0 (a ++ b) = (allElemNsList ns0 a && allElemNsList ns0 b) := by
  induction a with
  | nil => simp [allElemNsList]
  | cons c rest ih =>
      simp only [List.cons_append, allElemNsList, ih, Bool.and_assoc]

/-- When the element's map carries no `xmlns` override, the incoming
namespace value survives `resolveNs`. -/
theorem resolveNs_no_override (attrs : Option NamedNodeMap) (ns0 : Ns)
    (h : (match attrs with
          | none => true
          | some m =>
              match m.xmlnsVal with
              | some (.prim (.str _)) => false
              | some (.prim .null) => false
              | _ => true) = true) :
    resolveNs attrs (some ns0) = ns0 := by
  cases attrs with
  | none => rfl
  | some m =>
      dsimp only at h
      simp only [resolveNs]
      rcases hx : m.xmlnsVal with _ | v
      · rfl
      · rw [hx] at h
        rcases v with p | _
        · rcases p with s | n | n | b | _ | _ <;> simp_all
        · rfl

/-- Propagation over a child list, given it for each member. -/
theorem createNodes_propagate_of (ds : List JsonML) :
    ∀ (ns0 : Ns), noXmlnsOverrideList ds = true →
      (∀ d' ∈ ds, noXmlnsOverride d' = true →
        allElemNsList ns0 (createNode d' (some ns0)) = true) →
    allElemNsList ns0 (createNodes ds (some ns0)) = true := by
  induction ds with
  | nil => intro ns0 _ _; simp [createNodes, allElemNsList]
  | cons d rest ih =>
      intro ns0 ho hrec
      simp only [noXmlnsOverrideList, Bool.and_eq_true] at ho
      simp only [createNodes, allElemNsList_append, Bool.and_eq_true]
      exact ⟨hrec d (by simp) ho.1, ih ns0 ho.2 (fun d' hd' => hrec d' (by simp [hd']))⟩

/-- `createNode` propagates a passed namespace value to every element in
the forest it builds — elements and elements inside fragments alike —
when no element overrides it. -/
theorem createNode_propagates_aux : ∀ (N : Nat) (d : JsonML), sizeOf d ≤ N →
    noXmlnsOverride d = true → ∀ (ns0 : Ns),
    allElemNsList ns0 (createNode d (some ns0)) = true := by
  intro N
  induction N with
  | zero =>
      intro d hd
      have := js_sizeOf_pos d
      omega
  | succ N ihN =>
      intro d hd ho ns0
      cases d with
      | text v => simp [createNode, allElemNsList, allElemNs]
      | comment v => simp [createNode, allElemNsList, allElemNs]
      | fragment ds =>
          simp only [noXmlnsOverride] at ho
          simp only [createNode, createDocumentFragment]
          apply createNodes_propagate_of ds ns0 ho
          intro d' hd' ho'
          apply ihN d' _ ho' ns0
          have h1 := List.sizeOf_lt_of_mem hd'
          have h2 : sizeOf ds < sizeOf (JsonML.fragment ds) := by simp_arith
          omega
      | element nm attrs ds =>
          rw [noXmlnsOverride.eq_def] at ho
          dsimp only at ho
          rw [Bool.and_eq_true] at ho
          simp only [createNode, createElement]
          rw [resolveNs_no_override attrs ns0 ho.1]
          simp only [allElemNsList, allElemNs, Bool.and_eq_true, beq_self_eq_true,
            true_and]
          refine ⟨?_, trivial⟩
          apply createNodes_propagate_of ds ns0 ho.2
          intro d' hd' ho'
          apply ihN d' _ ho' ns0
          have h1 := List.sizeOf_lt_of_mem hd'
          have h2 : sizeOf ds < sizeOf (JsonML.element nm attrs ds) := by simp_arith
          omega

theorem createNode_propagates (d : JsonML) (ho : noXmlnsOverride d = true) (ns0 : Ns) :
    allElemNsList ns0 (createNode d (some ns0)) = true :=
  createNode_propagates_aux (sizeOf d) d (Nat.le_refl _) ho ns0

theorem createNodes_propagate (ds : List JsonML) (ho : noXmlnsOverrideList ds = true)
    (ns0 : Ns) : allElemNsList ns0 (createNodes ds (some ns0)) = true :=
  createNodes_propagate_of ds ns0 ho fun d' _ ho' => createNode_propagates d' ho' ns0

/-- A string `xmlns` entry overrides the namespace for the element and —
when nothing deeper overrides again — all of its descendants. -/
theorem createElement_override (nm : String) (m : NamedNodeMap) (ds : List JsonML)
    (x : Option Ns) (ov : Ns)
    (hx : m.xmlnsVal = some (.prim (.str (ov.getD ""))) ∧ ov.isSome ∨
          m.xmlnsVal = some (.prim .null) ∧ ov = none)
    (ho : noXmlnsOverrideList ds = true) :
    createElement (.element nm (some m) ds) x =
      .element nm ov (applyEntries (some m)).1 (applyEntries (some m)).2
        (createNodes ds (some ov)) ∧
    allElemNsList ov (createNodes ds (some ov)) = true := by
  have hns : resolveNs (some m) x = ov := by
    rcases hx with ⟨hs, hsome⟩ | ⟨hn, rfl⟩
    · rcases ov with _ | u
      · simp at hsome
      · simp only [Option.getD] at hs
        simp [resolveNs, hs]
    · simp [resolveNs, hn]
  constructor
  · simp only [createElement, hns]
  · exact createNodes_propagate ds ho ov

/-! ### Claim theorems -/

/-- C1 counterexample: the claim fails on a nonempty starting live tree.
Rendering the description `Fragment[Text "a"]` over a root whose one
child is the text node `"x"` replaces that child with a delimited
fragment, leaving the children `[Delimiter, Text "a"]`, while the Node
Factory applied to the same description (with the root's namespace)
produces just `[Text "a"]`: the shapes differ (an extra comment node). -/
theorem claimC1_counterexample :
    (render (.fragment [.text (.str "a")])
        (.element "r" (some htmlns) [] [] [.text "x"])).nodes =
      [.element "r" (some htmlns) [] [] [.comment "" true, .text "a"]] ∧
    createNode (.fragment [.text (.str "a")]) (some (some htmlns)) = [.text "a"] ∧
    ([LiveNode.comment "" true, .text "a"] ≠ [LiveNode.text "a"]) := by
  refine ⟨?_, ?_, by simp⟩
  · simp [render, patchElement, patchChildren, patchStep, patchDocumentFragment,
      fragLoop, patchNode, sameNodeName, nodeNameOf, LiveNode.nodeName,
      LiveNode.namespaceURI, twNextSibling, twCurrentHasNext, applyAt, appendNodes,
      removeFrom, createDelimitedNode, createDelimitedDocumentFragment,
      isDocumentFragment, createNode, createNodes, createElement,
      createDocumentFragment, nodeValueOf, nodeValueOfJsonML, LiveNode.isDelim,
      dummyNode]
  · simp [createNode, createDocumentFragment, createNodes, nodeValueOf]

/-- C1 (amended): convergence holds in two forms.  For an EMPTY starting
live root, one `render` call leaves the root's children exactly equal —
shape, node values, namespaces, attributes, everything — to the forest
the Node Factory produces from the description directly (with the
root's namespace), with that single append the only mutation.  For an
ARBITRARY starting live tree, one `render` call leaves the root's
children with the matcher-level shape and node values of the
description (names matching under the namespace case rule, node kinds,
text values and child counts, recursively: `convergedL`), which is
exactly the shape and values of the Node Factory's own output from the
same description — provided the description is Fragment-, Comment- and
attribute-free (the fragment-boundary, comment-blanking and ghost-text
divergences of the C2/C8 counterexamples are exactly what this excludes).
Attributes of matched live elements are never patched, so factory
equality of attributes cannot hold on nonempty starts. -/
theorem claimC1_amended :
    (∀ (j : JsonML), validNames j = true →
      ∀ (rn : String) (rns : Ns) (ras : List (String × String))
        (rps : List (String × PropValue)),
      render j (.element rn rns ras rps []) =
        ⟨[.element rn rns ras rps (createNode j (some rns))], true,
         [.appended (createNode j (some rns))]⟩) ∧
    (∀ (D : JsonML), validNames D = true → plain D = true →
      ∀ (rn : String) (rns : Ns) (ras : List (String × String))
        (rps : List (String × PropValue)) (rcs : List LiveNode),
        validLiveList rcs = true →
      ∃ cs' log, render D (.element rn rns ras rps rcs) =
          ⟨[.element rn rns ras rps cs'], true, log⟩ ∧
        convergedL [D] cs' = true ∧
        convergedL [D] (createNode D (some rns)) = true) := by
  constructor
  · intro j _hv rn rns ras rps
    rw [render_eq_patchElement]
    rw [patchElement_match_empty rn none [j] rn rns ras rps
      (sameNodeName_self rn none [j] rns ras rps [])]
    simp [createDocumentFragment, createNodes]
  · intro D hv hp rn rns ras rps rcs hl
    obtain ⟨cs', log, h1, hc1⟩ := render_conv D hv hp rn rns ras rps rcs hl
    obtain ⟨m, hm, hcm⟩ := createNode_conv D hp (some rns)
    exact ⟨cs', log, h1, hc1, by simp [hm, convergedL, hcm]⟩

/-- C1 amended witness at a concrete input. -/
theorem claimC1_amended_witness :
    validNames (.element "div" none [.text (.str "hi")]) = true ∧
    plain (.element "div" none [.text (.str "hi")]) = true ∧
    validLiveList [LiveNode.text "b"] = true ∧
    render (.element "div" none [.text (.str "hi")])
        (.element "r" (some htmlns) [] [] []) =
      ⟨[.element "r" (some htmlns) [] []
          (createNode (.element "div" none [.text (.str "hi")]) (some (some htmlns)))],
       true,
       [.appended (createNode (.element "div" none [.text (.str "hi")])
          (some (some htmlns)))]⟩ ∧
    (∃ cs' log, render (.element "div" none [.text (.str "hi")])
        (.element "r" (some htmlns) [] [] [.text "b"]) =
        ⟨[.element "r" (some htmlns) [] [] cs'], true, log⟩ ∧
      convergedL [.element "div" none [.text (.str "hi")]] cs' = true ∧
      convergedL [.element "div" none [.text (.str "hi")]]
        (createNode (.element "div" none [.text (.str "hi")])
          (some (some htmlns))) = true) := by
  have hv : validNames (.element "div" none [.text (.str "hi")]) = true := by
    simp only [validNames, validNamesList]
    decide
  have hp : plain (.element "div" none [.text (.str "hi")]) = true := by
    simp only [plain, plainList]
    decide
  have hl : validLiveList [LiveNode.text "b"] = true := by
    simp only [validLiveList, validLive]
    decide
  exact ⟨hv, hp, hl,
    claimC1_amended.1 (.element "div" none [.text (.str "hi")]) hv "r" (some htmlns) [] [],
    claimC1_amended.2 (.element "div" none [.text (.str "hi")]) hv hp "r" (some htmlns)
      [] [] [.text "b"] hl⟩

/-- C2 counterexample: a second `render` with the same description is
not free of mutations.  Three independent failures, one per exclusion
the amendment needs: (a) a Fragment child whose content ends exactly one
position before the live end makes the first pass append a duplicate
node and the second pass remove it; (b) a Comment description's value is
compared through `nodeValueOf` applied to the whole array (`""`), so the
second pass blanks the freshly created comment `"hi"`; (c) an attribute
map on a childless element is treated as a child by the empty-side
append path, so the second pass appends a ghost empty text node. -/
theorem claimC2_counterexample :
    quiet (render (.element "div" none [.fragment [.text (.str "a")], .text (.str "x")])
      ((render (.element "div" none [.fragment [.text (.str "a")], .text (.str "x")])
        (.element "r" (some htmlns) [] []
          [.element "div" (some htmlns) [] []
            [.comment "" true, .text "a", .text "x"]])).nodes.headD dummyNode)).log
      = false ∧
    quiet (render (.comment (.str "hi"))
      ((render (.comment (.str "hi"))
        (.element "r" (some htmlns) [] [] [])).nodes.headD dummyNode)).log = false ∧
    quiet (render (.element "div" (some ⟨[.attr "class" (.prim (.str "x"))]⟩) [])
      ((render (.element "div" (some ⟨[.attr "class" (.prim (.str "x"))]⟩) [])
        (.element "r" (some htmlns) [] [] [])).nodes.headD dummyNode)).log = false := by
  refine ⟨?_, ?_, ?_⟩ <;>
    simp [render, patchElement, patchChildren, patchStep, patchDocumentFragment,
      fragLoop, patchNode, sameNodeName, nodeNameOf, LiveNode.nodeName,
      LiveNode.namespaceURI, twNextSibling, twCurrentHasNext, applyAt, appendNodes,
      removeFrom, createDelimitedNode, createDelimitedDocumentFragment,
      isDocumentFragment, createNode, createNodes, createElement,
      createDocumentFragment, nodeValueOf, nodeValueOfJsonML, LiveNode.isDelim,
      dummyNode, quiet, Mutation.isNoop, applyEntries, applyEntry, setAttr, hasAttr,
      removeAttr, resolveNs, NamedNodeMap.xmlnsVal]

/-- C2 (amended): idempotence holds for descriptions containing no
Fragment, no Comment and no attribute map: after one `render`, a second
`render` with the same description performs zero mutations — no node
created, removed or replaced and no value written. -/
theorem claimC2_amended (D : JsonML) (hv : validNames D = true) (hp : plain D = true)
    (rn : String) (rns : Ns) (ras : List (String × String))
    (rps : List (String × PropValue)) (rcs : List LiveNode)
    (hl : validLiveList rcs = true) :
    quiet (render D ((render D (.element rn rns ras rps rcs)).nodes.headD
      dummyNode)).log = true := by
  obtain ⟨cs₁, log₁, h1, hc1⟩ := render_conv D hv hp rn rns ras rps rcs hl
  rw [h1]
  simp only [List.headD_cons]
  obtain ⟨log₂, h2, hq⟩ := render_quiet D hp rn rns ras rps cs₁ hc1
  rw [h2]
  exact hq

/-- C2 amended witness at a concrete input. -/
theorem claimC2_amended_witness :
    validNames (.element "div" none [.text (.str "a")]) = true ∧
    plain (.element "div" none [.text (.str "a")]) = true ∧
    validLiveList [LiveNode.text "b"] = true ∧
    quiet (render (.element "div" none [.text (.str "a")])
      ((render (.element "div" none [.text (.str "a")])
        (.element "r" (some htmlns) [] [] [.text "b"])).nodes.headD dummyNode)).log
      = true := by
  have hv : validNames (.element "div" none [.text (.str "a")]) = true := by
    simp only [validNames, validNamesList]
    decide
  have hp : plain (.element "div" none [.text (.str "a")]) = true := by
    simp only [plain, plainList]
    decide
  have hl : validLiveList [LiveNode.text "b"] = true := by
    simp only [validLiveList, validLive]
    decide
  exact ⟨hv, hp, hl, claimC2_amended (.element "div" none [.text (.str "a")]) hv hp
    "r" (some htmlns) [] [] [.text "b"] hl⟩

/-- C3 counterexample: `render` does not reconcile the root's children
against the description's children — the description itself becomes the
single description child.  With live children `[Text "y"]` and
description `Element("div", [Text "x"])`, reconciling against the
description's children would leave `[Text "x"]`, but the code replaces
the text with a whole fresh `div` element. -/
theorem claimC3_counterexample :
    (render (.element "div" none [.text (.str "x")])
        (.element "r" (some htmlns) [] [] [.text "y"])).nodes =
      [.element "r" (some htmlns) [] []
        [.element "div" (some htmlns) [] [] [.text "x"]]] ∧
    ([LiveNode.element "div" (some htmlns) [] [] [.text "x"]] ≠
      [LiveNode.text "x"]) := by
  have hmm : sameNodeName (.element "div" none [.text (.str "x")])
      (LiveNode.text "y") = false := by decide
  refine ⟨?_, by simp⟩
  simp [render, patchElement, patchChildren, patchStep, patchDocumentFragment,
    fragLoop, patchNode, sameNodeName, nodeNameOf, LiveNode.nodeName,
    LiveNode.namespaceURI, twNextSibling, twCurrentHasNext, applyAt, appendNodes,
    removeFrom, createDelimitedNode, createDelimitedDocumentFragment,
    isDocumentFragment, createNode, createNodes, createElement,
    createDocumentFragment, nodeValueOf, nodeValueOfJsonML, LiveNode.isDelim,
    dummyNode, hmm, applyEntries, resolveNs]
  rw [if_neg (by decide)]

/-- C3 (amended): `render(description, liveRoot)` never replaces or
renames `liveRoot` — the synthetic top-level match always succeeds, the
root's name, namespace, attributes and properties survive — and it
reconciles `liveRoot`'s children against the single-element description
child list `[description]`; the description's own children are handled
one level deeper. -/
theorem claimC3_amended (j : JsonML) (rn : String) (rns : Ns)
    (ras : List (String × String)) (rps : List (String × PropValue))
    (rcs : List LiveNode) :
    render j (.element rn rns ras rps rcs) =
      patchElement (.element rn none [j]) (.element rn rns ras rps rcs) ∧
    ∃ cs' log, render j (.element rn rns ras rps rcs) =
      ⟨[.element rn rns ras rps cs'], true, log⟩ := by
  refine ⟨rfl, ?_⟩
  rw [render_eq_patchElement]
  exact patchElement_match_shape rn none [j] rn rns ras rps rcs
    (sameNodeName_self rn none [j] rns ras rps rcs)

/-- C4 (confirmed): the source matcher coincides with the
specification's rule — exact case-sensitive name comparison when the
live node's namespace is the SVG namespace, case-insensitive comparison
otherwise — and Text/Comment identity is decided purely by node kind,
never by value: a Text matches a Text and a Comment matches a Comment
whatever their values, Text never matches Comment, and changing a live
text or comment value (or the delimiter flag) never changes the
matcher's verdict. -/
theorem claimC4_matcher :
    (∀ (j : JsonML) (n : LiveNode), sameNodeName j n = specSameIdentity j n) ∧
    (∀ (j : JsonML) (v v' : String), sameNodeName j (.text v) = sameNodeName j (.text v')) ∧
    (∀ (j : JsonML) (v v' : String) (b b' : Bool),
      sameNodeName j (.comment v b) = sameNodeName j (.comment v' b')) ∧
    (∀ (p : Prim) (s : String), sameNodeName (.text p) (.text s) = true) ∧
    (∀ (p : Prim) (s : String) (b : Bool),
      sameNodeName (.comment p) (.comment s b) = true) ∧
    (∀ (p : Prim) (s : String) (b : Bool),
      sameNodeName (.text p) (.comment s b) = false) ∧
    (∀ (p : Prim) (s : String), sameNodeName (.comment p) (.text s) = false) :=
  ⟨fun _ _ => rfl, fun _ _ _ => rfl, fun _ _ _ _ _ => rfl,
   sameNodeName_text_text, sameNodeName_comment_comment,
   sameNodeName_text_comment, sameNodeName_comment_text⟩

/-- C5 (confirmed): on an identity mismatch, `patchElement` replaces the
live node wholesale with a freshly constructed subtree built by the Node
Factory from the description alone (`createElement(jsonml)`, no
namespace forwarded), performs exactly that one replacement, and never
recurses into the old node's children — the result is independent of
them. -/
theorem claimC5_mismatch_replacement (nm : String) (attrs : Option NamedNodeMap)
    (ds : List JsonML) (n : LiveNode)
    (_hv : validNames (.element nm attrs ds) = true)
    (h : sameNodeName (.element nm attrs ds) n = false) :
    patchElement (.element nm attrs ds) n =
      ⟨[createElement (.element nm attrs ds) none], false,
       [.replaced n [createElement (.element nm attrs ds) none]]⟩ :=
  patchElement_mismatch nm attrs ds n h

/-- C5 witness at a concrete input. -/
theorem claimC5_witness :
    validNames (.element "div" none []) = true ∧
    sameNodeName (.element "div" none [])
      (.element "span" (some htmlns) [] [] [.text "old"]) = false ∧
    patchElement (.element "div" none [])
        (.element "span" (some htmlns) [] [] [.text "old"]) =
      ⟨[createElement (.element "div" none []) none], false,
       [.replaced (.element "span" (some htmlns) [] [] [.text "old"])
          [createElement (.element "div" none []) none]]⟩ := by
  have hv : validNames (.element "div" none []) = true := by
    simp only [validNames, validNamesList]
    decide
  have h : sameNodeName (.element "div" none [])
      (.element "span" (some htmlns) [] [] [.text "old"]) = false := by decide
  exact ⟨hv, h, claimC5_mismatch_replacement "div" none []
    (.element "span" (some htmlns) [] [] [.text "old"]) hv h⟩

/-- C6 counterexample: with a Fragment among the description children
the claimed count-based trim fails.  The live element has four children
and the description one child (a Fragment), so the claim demands the
surplus trailing children be removed — but when the fragment's content
ends exactly one position before the live end, the walker bookkeeping
after `patchDocumentFragment` nulls the continuation and the patch
removes nothing at all (empty log, all four children kept). -/
theorem claimC6_counterexample :
    ([JsonML.fragment [.text (.str "a"), .text (.str "b")]] : List JsonML).length <
      ([LiveNode.comment "" true, .text "a", .text "b", .text "EXTRA"] :
        List LiveNode).length ∧
    patchElement (.element "div" none [.fragment [.text (.str "a"), .text (.str "b")]])
        (.element "div" (some htmlns) [] []
          [.comment "" true, .text "a", .text "b", .text "EXTRA"]) =
      ⟨[.element "div" (some htmlns) [] []
          [.comment "" true, .text "a", .text "b", .text "EXTRA"]], true, []⟩ := by
  refine ⟨by decide, ?_⟩
  simp [patchElement, patchChildren, patchStep, patchDocumentFragment,
    fragLoop, patchNode, sameNodeName, nodeNameOf, LiveNode.nodeName,
    LiveNode.namespaceURI, twNextSibling, twCurrentHasNext, applyAt, appendNodes,
    removeFrom, createDelimitedNode, createDelimitedDocumentFragment,
    isDocumentFragment, createNode, createNodes, createElement,
    createDocumentFragment, nodeValueOf, nodeValueOfJsonML, LiveNode.isDelim,
    dummyNode]

/-- C6 (amended): the trailing trim holds whenever no description child
is a Fragment: with more live children than description children, the
first `ds.length` live children are patched one-to-one in their original
order and exactly the surplus trailing live children are removed (the
only top-level removals, in order). -/
theorem claimC6_amended (nm : String) (attrs : Option NamedNodeMap)
    (ds : List JsonML) (rn : String) (rns : Ns) (ras : List (String × String))
    (rps : List (String × PropValue)) (rcs : List LiveNode)
    (h : sameNodeName (.element nm attrs ds) (.element rn rns ras rps rcs) = true)
    (hf : ∀ d ∈ ds, isDocumentFragment d = false)
    (hlen : ds.length < rcs.length) :
    patchElement (.element nm attrs ds) (.element rn rns ras rps rcs) =
      ⟨[.element rn rns ras rps (zipNodes ds rcs)], true,
       zipLogs ds rcs ++ (rcs.drop ds.length).map Mutation.removed⟩ :=
  patchElement_match_longer nm attrs ds rn rns ras rps rcs h hf hlen

/-- C6 amended witness at a concrete input. -/
theorem claimC6_amended_witness :
    sameNodeName (.element "div" none [.text (.str "a")])
      (.element "div" (some htmlns) [] [] [.text "a", .text "b"]) = true ∧
    (∀ d ∈ ([JsonML.text (.str "a")] : List JsonML), isDocumentFragment d = false) ∧
    ([JsonML.text (.str "a")] : List JsonML).length <
      ([LiveNode.text "a", .text "b"] : List LiveNode).length ∧
    patchElement (.element "div" none [.text (.str "a")])
        (.element "div" (some htmlns) [] [] [.text "a", .text "b"]) =
      ⟨[.element "div" (some htmlns) [] []
          (zipNodes [.text (.str "a")] [.text "a", .text "b"])], true,
       zipLogs [.text (.str "a")] [.text "a", .text "b"] ++
         (([LiveNode.text "a", .text "b"] : List LiveNode).drop 1).map
           Mutation.removed⟩ := by
  have h : sameNodeName (.element "div" none [.text (.str "a")])
      (.element "div" (some htmlns) [] [] [.text "a", .text "b"]) = true := by decide
  have hf : ∀ d ∈ ([JsonML.text (.str "a")] : List JsonML),
      isDocumentFragment d = false := by decide
  exact ⟨h, hf, by decide, claimC6_amended "div" none [.text (.str "a")] "div"
    (some htmlns) [] [] [.text "a", .text "b"] h hf (by decide)⟩

/-- C7 counterexample: a Fragment description patched fresh into an
empty parent is mounted through `createDocumentFragment` — the plain
Node Factory — and gets NO delimiter: the live children are
`[Text "a", Text "b"]`, not `[Delimiter, Text "a", Text "b"]` as the
claim (and the spec's concrete scenario) state. -/
theorem claimC7_counterexample :
    (render (.fragment [.text (.str "a"), .text (.str "b")])
        (.element "r" (some htmlns) [] [] [])).nodes =
      [.element "r" (some htmlns) [] [] [.text "a", .text "b"]] ∧
    (∀ (t : List LiveNode),
      ([LiveNode.text "a", .text "b"] : List LiveNode) ≠ .comment "" true :: t) := by
  refine ⟨?_, by intro t ht; simp at ht⟩
  simp [render, patchElement, patchChildren, patchStep, patchDocumentFragment,
    fragLoop, patchNode, sameNodeName, nodeNameOf, LiveNode.nodeName,
    LiveNode.namespaceURI, twNextSibling, twCurrentHasNext, applyAt, appendNodes,
    removeFrom, createDelimitedNode, createDelimitedDocumentFragment,
    isDocumentFragment, createNode, createNodes, createElement,
    createDocumentFragment, nodeValueOf, nodeValueOfJsonML, LiveNode.isDelim,
    dummyNode]

/-- C7 (amended): a Fragment is paired with a Delimiter exactly on the
`createDelimitedNode` / `createDelimitedDocumentFragment` paths — when a
description child is appended past the live end, or when a Fragment is
patched over a non-delimiter anchor, the fresh content is a Delimiter
immediately followed by the Fragment's fresh children.  A Fragment
patched fresh into an empty parent, by contrast, goes through the plain
factory and gets no Delimiter. -/
theorem claimC7_amended :
    (∀ (ds : List JsonML) (x : Option Ns),
      createDelimitedNode (.fragment ds) x = .comment "" true :: createNodes ds x) ∧
    (∀ (ds : List JsonML) (p : Nat) (st : St),
      (st.cs.getD p dummyNode).isDelim = false →
      patchDocumentFragment (.fragment ds) p st =
        applyAt p ⟨.comment "" true :: createNodes ds none, false,
          [.replaced (st.cs.getD p dummyNode)
            (.comment "" true :: createNodes ds none)]⟩ st) ∧
    (∀ (ds : List JsonML) (rn : String) (rns : Ns) (ras : List (String × String))
      (rps : List (String × PropValue)),
      render (.fragment ds) (.element rn rns ras rps []) =
        ⟨[.element rn rns ras rps (createNodes ds (some rns))], true,
         [.appended (createNodes ds (some rns))]⟩) := by
  refine ⟨createDelimitedNode_fragment, ?_, ?_⟩
  · intro ds p st hnd
    have hnd' : (st.cs[p]?.getD dummyNode).isDelim = false := by
      simpa [List.getD] using hnd
    simp [patchDocumentFragment, hnd', createDelimitedDocumentFragment, List.getD]
  · intro ds rn rns ras rps
    rw [render_eq_patchElement]
    rw [patchElement_match_empty rn none [.fragment ds] rn rns ras rps
      (sameNodeName_self rn none [.fragment ds] rns ras rps [])]
    simp [createDocumentFragment, createNodes, createNode]

/-- C7 amended witness at a concrete input. -/
theorem claimC7_amended_witness :
    ((⟨[.text "x"], some 0, []⟩ : St).cs.getD 0 dummyNode).isDelim = false ∧
    patchDocumentFragment (.fragment [.text (.str "a")]) 0 ⟨[.text "x"], some 0, []⟩ =
      applyAt 0 ⟨.comment "" true :: createNodes [.text (.str "a")] none, false,
        [.replaced ((⟨[.text "x"], some 0, []⟩ : St).cs.getD 0 dummyNode)
          (.comment "" true :: createNodes [.text (.str "a")] none)]⟩
        ⟨[.text "x"], some 0, []⟩ ∧
    render (.fragment [.text (.str "a")]) (.element "r" (some htmlns) [] [] []) =
      ⟨[.element "r" (some htmlns) [] []
          (createNodes [.text (.str "a")] (some (some htmlns)))], true,
       [.appended (createNodes [.text (.str "a")] (some (some htmlns)))]⟩ := by
  refine ⟨by decide, ?_, ?_⟩
  · exact claimC7_amended.2.1 [.text (.str "a")] 0 ⟨[.text "x"], some 0, []⟩ (by decide)
  · exact claimC7_amended.2.2 [.text (.str "a")] "r" (some htmlns) [] []

/-- C8 (code bug): `patchNode` applies `nodeValueOf` to the WHOLE
comment description array, which stringifies to `""`, instead of to the
comment's value slot.  At the failing input — live comment `"hi"`
patched against the description `[#comment, "hi"]`, whose stringified
value is the unchanged `"hi"` — the claim (and spec §4.5) demand zero
writes, but the code performs one write, blanking the comment to `""`. -/
theorem claimC8_comment_blanking :
    nodeValueOf (.str "hi") = "hi" ∧
    (LiveNode.comment "hi" false).nodeValue = some "hi" ∧
    patchNode (.comment (.str "hi")) (.comment "hi" false) =
      ⟨[.comment "" false], true, [.valueWrite "hi" ""]⟩ := by
  refine ⟨rfl, rfl, ?_⟩
  simp [patchNode, sameNodeName, LiveNode.namespaceURI, LiveNode.nodeName,
    nodeNameOf, nodeValueOfJsonML]

/-- C9 (confirmed): the namespace passed to the Node Factory propagates
to all children, including children reached through Fragment
descriptions (a Fragment forwards its namespace argument unchanged),
unless an element's attribute map carries an `xmlns` entry that is a
string or null: a string overrides the namespace for that element and
its descendants, null overrides it to no-namespace for that element and
its descendants. -/
theorem claimC9_namespace_propagation :
    (∀ (ds : List JsonML) (x : Option Ns), createNode (.fragment ds) x = createNodes ds x) ∧
    (∀ (d : JsonML), noXmlnsOverride d = true → ∀ (ns0 : Ns),
      allElemNsList ns0 (createNode d (some ns0)) = true) ∧
    (∀ (nm : String) (m : NamedNodeMap) (ds : List JsonML) (x : Option Ns) (s : String),
      m.xmlnsVal = some (.prim (.str s)) → noXmlnsOverrideList ds = true →
      createElement (.element nm (some m) ds) x =
        .element nm (some s) (applyEntries (some m)).1 (applyEntries (some m)).2
          (createNodes ds (some (some s))) ∧
      allElemNsList (some s) (createNodes ds (some (some s))) = true) ∧
    (∀ (nm : String) (m : NamedNodeMap) (ds : List JsonML) (x : Option Ns),
      m.xmlnsVal = some (.prim .null) → noXmlnsOverrideList ds = true →
      createElement (.element nm (some m) ds) x =
        .element nm none (applyEntries (some m)).1 (applyEntries (some m)).2
          (createNodes ds (some none)) ∧
      allElemNsList none (createNodes ds (some none)) = true) := by
  refine ⟨?_, createNode_propagates, ?_, ?_⟩
  · intro ds x
    simp [createNode, createDocumentFragment]
  · intro nm m ds x s hx ho
    exact createElement_override nm m ds x (some s) (Or.inl ⟨hx, rfl⟩) ho
  · intro nm m ds x hx ho
    exact createElement_override nm m ds x none (Or.inr ⟨hx, rfl⟩) ho

/-- C9 witness at a concrete input: an SVG override inside an HTML
fragment, in the shape of the library's own README example. -/
theorem claimC9_witness :
    noXmlnsOverride (.fragment [.element "h1" none [.text (.str "t")]]) = true ∧
    allElemNsList (some htmlns)
      (createNode (.fragment [.element "h1" none [.text (.str "t")]])
        (some (some htmlns))) = true ∧
    NamedNodeMap.xmlnsVal ⟨[.attr "xmlns" (.prim (.str svgns))]⟩ =
      some (.prim (.str svgns)) ∧
    noXmlnsOverrideList [.element "circle" none []] = true ∧
    createElement (.element "svg" (some ⟨[.attr "xmlns" (.prim (.str svgns))]⟩)
        [.element "circle" none []]) (some (some htmlns)) =
      .element "svg" (some svgns)
        (applyEntries (some ⟨[.attr "xmlns" (.prim (.str svgns))]⟩)).1
        (applyEntries (some ⟨[.attr "xmlns" (.prim (.str svgns))]⟩)).2
        (createNodes [.element "circle" none []] (some (some svgns))) ∧
    allElemNsList (some svgns)
      (createNodes [.element "circle" none []] (some (some svgns))) = true := by
  have h1 : noXmlnsOverride (.fragment [.element "h1" none [.text (.str "t")]]) = true := by
    simp only [noXmlnsOverride, noXmlnsOverrideList]
    rfl
  have h2 : noXmlnsOverrideList [JsonML.element "circle" none []] = true := by
    simp only [noXmlnsOverride, noXmlnsOverrideList]
    rfl
  have h3 : NamedNodeMap.xmlnsVal ⟨[.attr "xmlns" (.prim (.str svgns))]⟩ =
      some (.prim (.str svgns)) := by decide
  obtain ⟨he, ha⟩ := claimC9_namespace_propagation.2.2.1 "svg"
    ⟨[.attr "xmlns" (.prim (.str svgns))]⟩ [.element "circle" none []]
    (some (some htmlns)) svgns h3 h2
  exact ⟨h1, claimC9_namespace_propagation.2.1 _ h1 (some htmlns), h3, h2, he, ha⟩

/-- C10 (confirmed, implicit behavior): `patchElement`'s mismatch
replacement calls `createElement(jsonml)` with no namespace argument, so
the replacement element resolves to the default HTML namespace whatever
the replaced live node's namespace was — in particular a mismatched
child inside an SVG subtree (live namespace `svgns`) is rebuilt as an
HTML-namespace element.  `patchNode`'s replacement path, by contrast,
forwards the old node's `namespaceURI` into `createDelimitedNode`. -/
theorem claimC10_replacement_namespace :
    (∀ (nm : String) (attrs : Option NamedNodeMap) (ds : List JsonML) (n : LiveNode),
      sameNodeName (.element nm attrs ds) n = false →
      patchElement (.element nm attrs ds) n =
        ⟨[createElement (.element nm attrs ds) none], false,
         [.replaced n [createElement (.element nm attrs ds) none]]⟩) ∧
    (∀ (nm : String) (ds : List JsonML),
      (createElement (.element nm none ds) none).namespaceURI = some htmlns) ∧
    (∀ (j : JsonML) (n : LiveNode), sameNodeName j n = false →
      patchNode j n =
        ⟨createDelimitedNode j (some n.namespaceURI), false,
         [.replaced n (createDelimitedNode j (some n.namespaceURI))]⟩) := by
  refine ⟨fun nm attrs ds n h => patchElement_mismatch nm attrs ds n h, ?_, ?_⟩
  · intro nm ds
    simp [createElement, resolveNs, LiveNode.namespaceURI]
  · intro j n h
    simp [patchNode, h]

/-- C10 witness at a concrete input: a mismatched live element inside
the SVG namespace is replaced by a default-HTML-namespace element. -/
theorem claimC10_witness :
    sameNodeName (.element "div" none [])
      (.element "circle" (some svgns) [] [] []) = false ∧
    patchElement (.element "div" none []) (.element "circle" (some svgns) [] [] []) =
      ⟨[createElement (.element "div" none []) none], false,
       [.replaced (.element "circle" (some svgns) [] [] [])
          [createElement (.element "div" none []) none]]⟩ ∧
    (createElement (.element "div" none []) none).namespaceURI = some htmlns ∧
    sameNodeName (.text (.str "v")) (.comment "c" false) = false ∧
    patchNode (.text (.str "v")) (.comment "c" false) =
      ⟨createDelimitedNode (.text (.str "v"))
          (some (LiveNode.comment "c" false).namespaceURI), false,
       [.replaced (.comment "c" false)
          (createDelimitedNode (.text (.str "v"))
            (some (LiveNode.comment "c" false).namespaceURI))]⟩ := by
  have h1 : sameNodeName (.element "div" none [])
      (.element "circle" (some svgns) [] [] []) = false := by decide
  have h2 : sameNodeName (.text (.str "v")) (.comment "c" false) = false := by decide
  exact ⟨h1, claimC10_replacement_namespace.1 "div" none [] _ h1,
    claimC10_replacement_namespace.2.1 "div" [],
    h2, claimC10_replacement_namespace.2.2 (.text (.str "v")) (.comment "c" false) h2⟩

end Jsonml
